import Mathlib

/-!
Verification of the chadguide flight-routing core.

This file gives a shallow embedding, in Lean 4, of the parts of the
repository that the specification's testable properties talk about:

* `dijkstra/labels.py`, `dijkstra/dominance.py` — search labels, the
  dominance relation and the Pareto filter;
* `dijkstra/alg.py` — the multi-criteria label-setting Dijkstra loop,
  `CityFlightArrays.get_feasible_indices`, `try_insert_label`;
* `dijkstra/reconstruction.py` — `reconstruct_path`;
* `src/flight_router/adapters/repositories/flight_graph_repo.py` —
  `build_city_index`;
* `src/flight_router/services/flight_data_expander_service.py` —
  `get_week_offsets_for_range`;
* `src/flight_router/services/route_validation_service.py` —
  `aggregate_route_status` and `_aggregate_validations`.

Python floats that only ever hold whole minutes and prices are embedded
as `Int` (the algorithms use nothing but ordered-field comparisons and
addition); the validation-aggregation layer, which divides by a length
to form a mean, is embedded over `ℚ`.  Python `set`/`frozenset` values
become `Finset String`; a `dict` built by grouping becomes either a
lookup function or an association list, as noted at each definition.
-/

namespace Chadguide

/-! ## Flight records and labels (`dijkstra/labels.py`, `dijkstra/alg.py`) -/

/-- A flight row / `FlightRecord` from `dijkstra/alg.py`: the five core
columns.  Extra columns are preserved-but-uninterpreted in the source and
are not modelled. -/
structure Flight where
  departure_airport : String
  arrival_airport : String
  dep_time : Int
  arr_time : Int
  price : Int
  deriving DecidableEq, Repr

/-- A search `Label` from `dijkstra/labels.py`.  The source stores
`prev : Optional[Label]` and `flight : Optional[FlightRecord]`, and only
ever creates labels of two shapes: the seed (both `None`) and an
expansion step (both set); the two constructors mirror exactly those two
creation sites in `dijkstra/alg.py`. -/
inductive Label where
  | seed (city : String) (time : Int) (visited : Finset String) (cost : Int)
  | step (city : String) (time : Int) (visited : Finset String) (cost : Int)
      (prev : Label) (flight : Flight)
  deriving DecidableEq

/-- The `city` field of a label. -/
def Label.city : Label → String
  | .seed c _ _ _ => c
  | .step c _ _ _ _ _ => c

/-- The `time` field of a label. -/
def Label.time : Label → Int
  | .seed _ t _ _ => t
  | .step _ t _ _ _ _ => t

/-- The `visited` field of a label. -/
def Label.visited : Label → Finset String
  | .seed _ _ v _ => v
  | .step _ _ v _ _ _ => v

/-- The `cost` field of a label. -/
def Label.cost : Label → Int
  | .seed _ _ _ k => k
  | .step _ _ _ k _ _ => k

/-! ## Dominance (`dijkstra/dominance.py`) -/

/-- The `dominates(l1, l2)` from `dijkstra/dominance.py`: same city and
visited set, no worse in both time and cost, strictly better in at least
one. -/
def dominates (l1 l2 : Label) : Bool :=
  l1.city = l2.city
    && l1.visited = l2.visited
    && l1.time ≤ l2.time
    && l1.cost ≤ l2.cost
    && (l1.time < l2.time || l1.cost < l2.cost)

/-! ## Validation statuses (`src/flight_router/ports/offer_validator.py`) -/

/-- The `ValidationStatus` enum. -/
inductive ValidationStatus where
  | confirmed
  | price_changed
  | unavailable
  | api_error
  deriving DecidableEq, Repr

/-- The `SegmentValidation` dataclass (the fields the aggregation reads). -/
structure SegmentValidation where
  segment_index : Nat
  status : ValidationStatus
  confidence : ℚ
  cached_price : ℚ
  live_price : Option ℚ := none
  offer_id : Option String := none
  error_message : Option String := none
  deriving DecidableEq

/-- The `RouteValidation` dataclass. -/
structure RouteValidation where
  route_id : Nat
  status : ValidationStatus
  segments : List SegmentValidation
  total_cached_price : ℚ
  total_live_price : Option ℚ
  average_confidence : ℚ
  validation_time_ms : ℚ
  deriving DecidableEq

/-- The `aggregate_route_status` from `route_validation_service.py`:
worst-status-wins by membership tests in priority order. -/
def aggregate_route_status (segment_statuses : List ValidationStatus) :
    ValidationStatus :=
  if ValidationStatus.api_error ∈ segment_statuses then .api_error
  else if ValidationStatus.unavailable ∈ segment_statuses then .unavailable
  else if ValidationStatus.price_changed ∈ segment_statuses then .price_changed
  else .confirmed

/-- The `RouteValidationService._aggregate_status`: same membership tests over
the statuses of the given segment validations. -/
def aggregate_status (segment_validations : List SegmentValidation) :
    ValidationStatus :=
  aggregate_route_status (segment_validations.map (·.status))

/-- The `RouteValidationService._aggregate_validations`: the aggregation of a
list of segment validations into a `RouteValidation`; the empty list gets
the `API_ERROR` early-return record. -/
def aggregate_validations (route_id : Nat)
    (segment_validations : List SegmentValidation) (elapsed_ms : ℚ) :
    RouteValidation :=
  if segment_validations = [] then
    { route_id := route_id
      status := .api_error
      segments := []
      total_cached_price := 0
      total_live_price := none
      average_confidence := 0
      validation_time_ms := elapsed_ms }
  else
    let status := aggregate_status segment_validations
    let total_cached := (segment_validations.map (·.cached_price)).sum
    let all_have_live :=
      segment_validations.all (fun sv => sv.live_price ≠ none)
    let total_live :=
      if all_have_live then
        some ((segment_validations.map (fun sv => sv.live_price.getD 0)).sum)
      else none
    let avg_confidence :=
      (segment_validations.map (·.confidence)).sum / segment_validations.length
    { route_id := route_id
      status := status
      segments := segment_validations
      total_cached_price := total_cached
      total_live_price := total_live
      average_confidence := avg_confidence
      validation_time_ms := elapsed_ms }

/-! ## Frontier insertion (`try_insert_label`, `dijkstra/alg.py`) -/

/-- The `try_insert_label` from `dijkstra/alg.py`.  The source scans the
existing labels once: if any existing label dominates the candidate it
returns `False` before mutating anything; otherwise it collects the
labels dominated by the candidate into `to_remove`, removes each of them
with `list.remove`, and appends the candidate.  The pair returned here is
`(return value, resulting list)`. -/
def try_insert_label (labels_at_state : List Label) (new_label : Label) :
    Bool × List Label :=
  if labels_at_state.any (fun existing => dominates existing new_label) then
    (false, labels_at_state)
  else
    let to_remove :=
      labels_at_state.filter (fun existing => dominates new_label existing)
    (true,
      (to_remove.foldl (fun acc r => acc.erase r) labels_at_state)
        ++ [new_label])

/-! ## Pareto filter (`pareto_filter`, `dijkstra/dominance.py`) -/

/-- The grouping key `(label.city, frozenset(label.visited))` used by
`pareto_filter`. -/
def groupKey (l : Label) : String × Finset String := (l.city, l.visited)

/-- The sort key of `pareto_filter`: ascending lexicographic on
`(cost, time)` (Python `sorted(group, key=lambda l: (l.cost, l.time))`). -/
def leCostTime (a b : Label) : Prop :=
  a.cost < b.cost ∨ (a.cost = b.cost ∧ a.time ≤ b.time)

instance : DecidableRel leCostTime := fun a b => by
  unfold leCostTime; infer_instance

instance : IsTotal Label leCostTime :=
  ⟨fun a b => by unfold leCostTime; omega⟩

instance : IsTrans Label leCostTime :=
  ⟨fun a b c => by unfold leCostTime; omega⟩

/-- The running `min_time` of the skyline sweep; `none` is Python's
`float("inf")` initial value. -/
def ltMinTime (t : Int) : Option Int → Bool
  | none => true
  | some m => t < m

/-- The sweep of `pareto_filter`: keep the labels whose `time` is
strictly below every previously seen `time`. -/
def skyline : List Label → Option Int → List Label
  | [], _ => []
  | l :: rest, m =>
    if ltMinTime l.time m then l :: skyline rest (some l.time)
    else skyline rest m

/-- The distinct group keys of a label list in first-occurrence order —
the iteration order of the Python dict built by `pareto_filter`'s
grouping loop. -/
def groupKeys (labels : List Label) : List (String × Finset String) :=
  labels.foldl
    (fun acc l => if groupKey l ∈ acc then acc else acc ++ [groupKey l]) []

/-- The `pareto_filter` from `dijkstra/dominance.py`: group by
`(city, visited)`, stably sort each group by `(cost, time)` ascending
(`List.insertionSort` is stable, like Python's `sorted`), sweep keeping
strictly decreasing times, and concatenate the groups in dict order. -/
def pareto_filter (labels : List Label) : List Label :=
  (groupKeys labels).flatMap (fun k =>
    skyline
      (List.insertionSort leCostTime (labels.filter (fun l => groupKey l = k)))
      none)

/-! ## Feasibility mask (`CityFlightArrays.get_feasible_indices`) -/

/-- The `CityFlightArrays.get_feasible_indices` from `dijkstra/alg.py`:
the indices of the rows of a city's flight block whose departure is at or
after `current_time` and whose arrival is at or before `t_max`. -/
def get_feasible_indices (flights : List Flight)
    (current_time t_max : Int) : List Nat :=
  (List.range flights.length).filter (fun i =>
    match flights.get? i with
    | some f => current_time ≤ f.dep_time && f.arr_time ≤ t_max
    | none => false)

/-! ## The search loop (`dijkstra`, `dijkstra/alg.py`) -/

/-- The request-local search state: the `(city, visited) ↦ labels`
dictionary (as an association list), the priority queue (as a plain list
of `(cost, time, label)` entries; pops take the minimum key) and the
recorded candidate solutions. -/
structure SearchState where
  labels : List ((String × Finset String) × List Label)
  pq : List (Int × Int × Label)
  solutions : List Label

/-- Dictionary read with `defaultdict(list)` semantics: a missing key
reads as `[]`. -/
def getLabels : List ((String × Finset String) × List Label) →
    (String × Finset String) → List Label
  | [], _ => []
  | e :: rest, k => if e.1 = k then e.2 else getLabels rest k

/-- Dictionary write: replace the entry of the key, or append one. -/
def putLabels : List ((String × Finset String) × List Label) →
    (String × Finset String) → List Label →
    List ((String × Finset String) × List Label)
  | [], k, v => [(k, v)]
  | e :: rest, k, v =>
    if e.1 = k then (k, v) :: rest else e :: putLabels rest k v

/-- Strict ordering of heap keys: lexicographic on `(cost, time)`.  The
Python heap additionally compares the label itself on full ties; the
model resolves full ties to the earliest entry. -/
def pqKeyLt (a b : Int × Int × Label) : Bool :=
  a.1 < b.1 || (a.1 = b.1 && a.2.1 < b.2.1)

/-- The `heapq.heappop`: remove and return a minimum-key entry (the earliest
one on ties). -/
def popMin : List (Int × Int × Label) →
    Option ((Int × Int × Label) × List (Int × Int × Label))
  | [] => none
  | x :: xs =>
    match popMin xs with
    | none => some (x, [])
    | some (m, rest) =>
      if pqKeyLt m x then some (m, x :: rest) else some (x, xs)

/-- The new label built when expanding `label` along the row `f`
(`dijkstra/alg.py`, the `for idx in feasible_idx` body): arrival
airport and time, `new_visited` adds the arrival airport exactly when it
is required, cost accumulates the price, and the stored flight record is
the row with its `departure_airport` overridden to the label's city
(`make_flight_record(idx, city)`). -/
def stepLabel (required_cities : Finset String) (label : Label)
    (f : Flight) : Label :=
  Label.step f.arrival_airport f.arr_time
    (if f.arrival_airport ∈ required_cities then
      insert f.arrival_airport label.visited
    else label.visited)
    (label.cost + f.price) label { f with departure_airport := label.city }

/-- One iteration of the expansion loop body: try to insert the new
label at its `(city, visited)` key; push it onto the queue iff the
insertion accepted it. -/
def expandOne (required_cities : Finset String) (label : Label)
    (st : SearchState) (f : Flight) : SearchState :=
  if (try_insert_label
      (getLabels st.labels
        (f.arrival_airport, (stepLabel required_cities label f).visited))
      (stepLabel required_cities label f)).1 then
    { labels := putLabels st.labels
        (f.arrival_airport, (stepLabel required_cities label f).visited)
        (try_insert_label
          (getLabels st.labels
            (f.arrival_airport, (stepLabel required_cities label f).visited))
          (stepLabel required_cities label f)).2
      pq := st.pq ++ [(label.cost + f.price, f.arr_time,
        stepLabel required_cities label f)]
      solutions := st.solutions }
  else
    { labels := putLabels st.labels
        (f.arrival_airport, (stepLabel required_cities label f).visited)
        (try_insert_label
          (getLabels st.labels
            (f.arrival_airport, (stepLabel required_cities label f).visited))
          (stepLabel required_cities label f)).2
      pq := st.pq
      solutions := st.solutions }

/-- The expansion of one popped label: iterating `get_feasible_indices`
and materializing each row with `make_flight_record(idx, city)` is
iterating the feasible rows in order, applying `expandOne` to each. -/
def expandLabel (required_cities : Finset String) (T_max : Int)
    (flights_by_city : String → List Flight) (label : Label)
    (st : SearchState) : SearchState :=
  ((flights_by_city label.city).filter
      (fun f => label.time ≤ f.dep_time && f.arr_time ≤ T_max)).foldl
    (expandOne required_cities label) st

/-- The `while pq` loop of `dijkstra`, with explicit fuel (the source
loop has no a-priori bound; every theorem below holds for every fuel
value).  Pop the minimum; discard labels past `T_max`; record goal
labels (`city = start ∧ visited = required`) as solutions without
expanding; expand everything else. -/
def dijkstraLoop (start_city : String) (required_cities : Finset String)
    (T_max : Int) (flights_by_city : String → List Flight) :
    Nat → SearchState → List Label
  | 0, st => st.solutions
  | fuel + 1, st =>
    match popMin st.pq with
    | none => st.solutions
    | some (e, rest) =>
      if T_max < e.2.2.time then
        dijkstraLoop start_city required_cities T_max flights_by_city fuel
          ⟨st.labels, rest, st.solutions⟩
      else if e.2.2.city = start_city ∧ e.2.2.visited = required_cities then
        dijkstraLoop start_city required_cities T_max flights_by_city fuel
          ⟨st.labels, rest, st.solutions ++ [e.2.2]⟩
      else
        dijkstraLoop start_city required_cities T_max flights_by_city fuel
          (expandLabel required_cities T_max flights_by_city e.2.2
            ⟨st.labels, rest, st.solutions⟩)

/-- The `validate_dijkstra_inputs` from `dijkstra/validation.py`: non-empty
flights, `T_min ≤ T_max`, the start city and every required city occur
among the departure or arrival airports.  (The required-columns check is
a statically-typed fact of the embedding.) -/
def validate_dijkstra_inputs (flights_df : List Flight)
    (start_city : String) (required_cities : Finset String)
    (T_min T_max : Int) : Bool :=
  !flights_df.isEmpty
    && T_min ≤ T_max
    && (let all_airports :=
          flights_df.map (·.departure_airport)
            ++ flights_df.map (·.arrival_airport)
        start_city ∈ all_airports
          && decide (∀ c ∈ required_cities, c ∈ all_airports))

/-- The `dijkstra` from `dijkstra/alg.py`: validate, seed the frontier and
the queue with `Label(start_city, T_min, ∅, 0)` at priority
`(0, T_min)`, run the loop, and Pareto-filter the recorded solutions.
A raised validation error surfaces as `none`. -/
def dijkstra (fuel : Nat) (flights_df : List Flight) (start_city : String)
    (required_cities : Finset String) (T_min T_max : Int)
    (flights_by_city : String → List Flight) : Option (List Label) :=
  if validate_dijkstra_inputs flights_df start_city required_cities
      T_min T_max then
    let start_label := Label.seed start_city T_min ∅ 0
    let st : SearchState :=
      { labels := [((start_city, ∅), [start_label])]
        pq := [(0, T_min, start_label)]
        solutions := [] }
    some (pareto_filter
      (dijkstraLoop start_city required_cities T_max flights_by_city fuel st))
  else none

/-! ## Path reconstruction (`dijkstra/reconstruction.py`) -/

/-- The `reconstruct_path`: walk the `prev` chain collecting labels and the
present flights, then reverse both lists (here built directly in
start-to-end order). -/
def reconstruct_path : Label → List Label × List Flight
  | .seed c t v k => ([Label.seed c t v k], [])
  | .step c t v k prev f =>
    let rec_prev := reconstruct_path prev
    (rec_prev.1 ++ [Label.step c t v k prev f], rec_prev.2 ++ [f])

/-- Spec-side: the reconstructed segment list of a solution label. -/
def routeFlights (l : Label) : List Flight := (reconstruct_path l).2

/-- Spec-side: `total_cost` of a solution — the sum of its segment
prices (`RouteResult.total_cost`). -/
def route_total_cost (l : Label) : Int :=
  ((routeFlights l).map (·.price)).sum

/-- Spec-side: `elapsed` of a solution — last segment `arr_time` minus
first segment `dep_time` (`RouteResult.total_time`); `0` for an empty
segment list. -/
def route_elapsed (l : Label) : Int :=
  match (routeFlights l).head?, (routeFlights l).getLast? with
  | some f, some g => g.arr_time - f.dep_time
  | _, _ => 0

/-- Spec-side: the arrival time of a solution — the last segment's
`arr_time`, or the label's own time for a zero-segment solution. -/
def route_end_time (l : Label) : Int :=
  match (routeFlights l).getLast? with
  | some g => g.arr_time
  | none => l.time

/-- Spec-side: two consecutive segments link up — the arrival airport
is the next departure airport, and the arrival time is at most the next
departure time. -/
def flightsLink (f g : Flight) : Prop :=
  f.arrival_airport = g.departure_airport ∧ f.arr_time ≤ g.dep_time

instance : DecidableRel flightsLink := fun f g => by
  unfold flightsLink; infer_instance

/-- Spec-side: adjacency consistency of a segment list — every
consecutive pair links up. -/
def adjacencyConsistent (fs : List Flight) : Prop :=
  List.Chain' flightsLink fs

/-! ## Minimum-stay feasibility (`src.dijkstra.alg`, spec-modelled) -/

/-- Modelled from the spec: the `src/dijkstra/alg.py` module imported by
`DijkstraRouteFinder.find_routes` and `tests/test_min_stay.py` (the
variant of the algorithm taking `min_stay_minutes`) is not in the source
tree — only its callers and tests are.  Per §4.3 of the spec,
`stay_minutes_for(city)` is `0` for the origin and for transit cities
not in `required`, and the configured minimum stay for every city in
`required`. -/
def stay_minutes_for (start_city : String) (required_cities : Finset String)
    (min_stay_minutes : Int) (city : String) : Int :=
  if city = start_city then 0
  else if city ∈ required_cities then min_stay_minutes
  else 0

/-- Modelled from the spec: during expansion of a label at `city` with
arrival time `time`, the min-stay variant filters a flight block with
`get_feasible_indices(time + stay_minutes_for(city), t_max)`, so a
flight is feasible iff `dep_time ≥ time + stay_minutes_for(city)` and
`arr_time ≤ t_max`. -/
def feasible_indices_with_stay (start_city : String)
    (required_cities : Finset String) (min_stay_minutes : Int)
    (city : String) (flights : List Flight) (time t_max : Int) : List Nat :=
  get_feasible_indices flights
    (time + stay_minutes_for start_city required_cities min_stay_minutes city)
    t_max

/-! ## City index (`build_city_index`, `flight_graph_repo.py`) -/

/-- The boundary mask of `build_city_index`:
`np.concatenate([[True], cities[1:] != cities[:-1]])` — position `i` is
a run boundary iff `i = 0` or the value differs from its predecessor. -/
def isRunStart (cities : List String) (i : Nat) : Bool :=
  i = 0 || decide (cities.get? i ≠ cities.get? (i - 1))

/-- The `np.where(change_mask)[0]`: the boundary positions, ascending. -/
def changeIndices (cities : List String) : List Nat :=
  (List.range cities.length).filter (isRunStart cities)

/-- The `build_city_index` from `flight_graph_repo.py`, over the
`departure_airport` column of the (pre-sorted, position-reset) flight
table: each boundary opens a half-open range that closes at the next
boundary, the last one at `row_count`; the dict entry of a range is
keyed by the value at its start.  (Modelled as an association list; on
the sorted inputs of the claim every key has a single run, so dict
overwrite never fires.) -/
def build_city_index (cities : List String) : List (String × Nat × Nat) :=
  if cities.isEmpty then []
  else
    let ci := changeIndices cities
    (ci.zip (ci.tail ++ [cities.length])).map
      (fun p => (cities.getD p.1 "", p.1, p.2))

/-! ## Week offsets (`FlightDataExpanderService`, weekly periodicity) -/

/-- The `FlightDataExpanderService.MINUTES_PER_DAY`. -/
def MINUTES_PER_DAY : ℚ := 24 * 60

/-- The `FlightDataExpanderService.MINUTES_PER_WEEK`. -/
def MINUTES_PER_WEEK : ℚ := 7 * MINUTES_PER_DAY

/-- The `weeks_before` local of `get_week_offsets_for_range`: whole
weeks needed before the base week start (Python `int(...)` truncation is
`Int.floor` on this positive argument). -/
def weeks_before_count (base_start t_min : ℚ) : Nat :=
  if t_min < base_start then
    (⌊(base_start - t_min) / MINUTES_PER_WEEK⌋).toNat + 1
  else 0

/-- The `weeks_after` local of `get_week_offsets_for_range`. -/
def weeks_after_count (base_end t_max : ℚ) : Nat :=
  if base_end < t_max then
    (⌊(t_max - base_end) / MINUTES_PER_WEEK⌋).toNat + 1
  else 0

/-- The `offsets` local of `get_week_offsets_for_range`: day offsets
`7·w` for `w ∈ [-weeks_before, weeks_after]`. -/
def week_offset_candidates (weeks_before weeks_after : Nat) : List Int :=
  (List.range (weeks_before + weeks_after + 1)).map
    (fun (i : Nat) => ((i : Int) - (weeks_before : Int)) * 7)

/-- The overlap test of `get_week_offsets_for_range`: the translated
week `[base_start + off·1440, base_end + off·1440]` meets
`[t_min, t_max]`. -/
def week_overlaps (base_start base_end t_min t_max : ℚ) (off : Int) :
    Bool :=
  t_min ≤ base_end + (off : ℚ) * MINUTES_PER_DAY
    && base_start + (off : ℚ) * MINUTES_PER_DAY ≤ t_max

/-- The `get_week_offsets_for_range` from
`flight_data_expander_service.py`, parametrized by the service's base
week bounds in epoch minutes: generate the candidate day offsets, keep
the overlapping ones, return them sorted (`sorted(...)`). -/
def get_week_offsets_for_range (base_start base_end : ℚ)
    (t_min t_max : ℚ) : List Int :=
  List.insertionSort (· ≤ ·)
    ((week_offset_candidates (weeks_before_count base_start t_min)
        (weeks_after_count base_end t_max)).filter
      (week_overlaps base_start base_end t_min t_max))

/-- The service's `_base_start_minutes`: 2026-07-13 00:00:00 minus the
epoch 2024-01-01 00:00:00, in minutes (924 days). -/
def BASE_WEEK_START_MINUTES : ℚ := 1330560

/-- The service's `_base_end_minutes`: 2026-07-19 23:59:59 minus the
epoch, in minutes (930 days plus 23:59:59, a non-integral number of
minutes). -/
def BASE_WEEK_END_MINUTES : ℚ := 1340639 + 59 / 60

/-- The service method with its configured base week. -/
def service_get_week_offsets_for_range (t_min t_max : ℚ) : List Int :=
  get_week_offsets_for_range BASE_WEEK_START_MINUTES BASE_WEEK_END_MINUTES
    t_min t_max

/-- Severity rank of a status under the spec's priority order
`ApiError > Unavailable > PriceChanged > Confirmed` (spec side, used to
express "the worst status"). -/
def statusSeverity : ValidationStatus → Nat
  | .confirmed => 0
  | .price_changed => 1
  | .unavailable => 2
  | .api_error => 3

/-- The more severe of two statuses (spec side). -/
def statusMax (a b : ValidationStatus) : ValidationStatus :=
  if statusSeverity a < statusSeverity b then b else a

/-- The worst status of a list under the priority order: fold of the
severity-maximum, starting from the best status (spec side). -/
def worstStatus (xs : List ValidationStatus) : ValidationStatus :=
  xs.foldl statusMax .confirmed

/-! ## Spec-side predicates and concrete instances -/

/-- Spec-side characterization of the labels the search constructs: the
seed label, and every expansion of a reachable label by a flight of its
city's block that departs no earlier than the label's time and arrives
by `T_max`.  The constructed label records arrival airport/time, the
updated visited set, the accumulated cost, the back-pointer, and the
flight record with its departure airport overridden to the expanded
city. -/
inductive Reaches (start_city : String) (required_cities : Finset String)
    (T_min T_max : Int) (flights_by_city : String → List Flight) :
    Label → Prop where
  | seed :
      Reaches start_city required_cities T_min T_max flights_by_city
        (.seed start_city T_min ∅ 0)
  | step (prev : Label) (f : Flight) :
      Reaches start_city required_cities T_min T_max flights_by_city prev →
      f ∈ flights_by_city prev.city →
      prev.time ≤ f.dep_time →
      f.arr_time ≤ T_max →
      Reaches start_city required_cities T_min T_max flights_by_city
        (.step f.arrival_airport f.arr_time
          (if f.arrival_airport ∈ required_cities then
            insert f.arrival_airport prev.visited
          else prev.visited)
          (prev.cost + f.price) prev { f with departure_airport := prev.city })

/-- Spec-side frontier invariant: no label of the list dominates a label
of the list.  (`dominates` is irreflexive, so quantifying over all pairs,
equal ones included, is the non-domination of the spec.) -/
def NoDominated (labels : List Label) : Prop :=
  ∀ a ∈ labels, ∀ b ∈ labels, dominates a b = false

instance (labels : List Label) : Decidable (NoDominated labels) := by
  unfold NoDominated; infer_instance

/-- Spec-side strict domination of solution `a` over solution `b` on a
pair of criteria: no worse on both, strictly better on at least one. -/
def strictlyDominatesOn (f g : Label → Int) (a b : Label) : Prop :=
  f a ≤ f b ∧ g a ≤ g b ∧ (f a < f b ∨ g a < g b)

instance (f g : Label → Int) (a b : Label) :
    Decidable (strictlyDominatesOn f g a b) := by
  unfold strictlyDominatesOn; infer_instance

/-- Concrete flight table refuting the claim that the returned solutions
are mutually non-dominated on `(total_cost, elapsed)`: a cheap late
round trip `A→B→A` with a short span, and an expensive early one with a
long span. -/
def cexFlights : List Flight :=
  [⟨"A", "B", 0, 1, 10⟩, ⟨"A", "B", 40, 41, 5⟩,
   ⟨"B", "A", 2, 45, 10⟩, ⟨"B", "A", 42, 50, 5⟩]

/-- The per-city grouping of `cexFlights` (the `flights_by_city`
argument the callers pre-compute with `groupby("departure_airport")`). -/
def cexFbc : String → List Flight := fun c =>
  if c = "A" then [⟨"A", "B", 0, 1, 10⟩, ⟨"A", "B", 40, 41, 5⟩]
  else if c = "B" then [⟨"B", "A", 2, 45, 10⟩, ⟨"B", "A", 42, 50, 5⟩]
  else []

/-- The flight table of end-to-end scenario 2 (single dominating
solution). -/
def scenario2Flights : List Flight :=
  [⟨"A", "B", 1, 2, 1⟩, ⟨"B", "D", 3, 4, 1⟩, ⟨"D", "A", 5, 6, 1⟩,
   ⟨"A", "C", 10, 20, 100⟩, ⟨"C", "D", 20, 50, 100⟩,
   ⟨"D", "A", 50, 80, 100⟩]

/-- The per-city grouping of `scenario2Flights`. -/
def scenario2Fbc : String → List Flight := fun c =>
  if c = "A" then [⟨"A", "B", 1, 2, 1⟩, ⟨"A", "C", 10, 20, 100⟩]
  else if c = "B" then [⟨"B", "D", 3, 4, 1⟩]
  else if c = "C" then [⟨"C", "D", 20, 50, 100⟩]
  else if c = "D" then [⟨"D", "A", 5, 6, 1⟩, ⟨"D", "A", 50, 80, 100⟩]
  else []

/-- The unique solution label of scenario 2:
`A →(1,2,$1) B →(3,4,$1) D →(5,6,$1) A`. -/
def scenario2Solution : Label :=
  .step "A" 6 {"D"} 3
    (.step "D" 4 {"D"} 2
      (.step "B" 2 ∅ 1 (.seed "A" 0 ∅ 0) ⟨"A", "B", 1, 2, 1⟩)
      ⟨"B", "D", 3, 4, 1⟩)
    ⟨"D", "A", 5, 6, 1⟩

/-- First solution of the `cexFlights` run: the cheap late round trip
`A →(40,41,$5) B →(42,50,$5) A` (cost 10, elapsed 10, arrival 50). -/
def cexSolution1 : Label :=
  .step "A" 50 {"B"} 10
    (.step "B" 41 {"B"} 5 (.seed "A" 0 ∅ 0) ⟨"A", "B", 40, 41, 5⟩)
    ⟨"B", "A", 42, 50, 5⟩

/-- Second solution of the `cexFlights` run: the expensive early round
trip `A →(0,1,$10) B →(2,45,$10) A` (cost 20, elapsed 45, arrival 45). -/
def cexSolution2 : Label :=
  .step "A" 45 {"B"} 20
    (.step "B" 1 {"B"} 10 (.seed "A" 0 ∅ 0) ⟨"A", "B", 0, 1, 10⟩)
    ⟨"B", "A", 2, 45, 10⟩

/-- The `BCN` flight block of end-to-end scenario 4 (min-stay
enforcement): the day-1 return departing 2 h after arrival, and the
day-2 return departing 27 h after arrival. -/
def scenario4BcnFlights : List Flight :=
  [⟨"BCN", "WAW", 780, 960, 100⟩, ⟨"BCN", "WAW", 2280, 2460, 120⟩]

/-! # Theorems -/

/-! ## C5 — the dominance relation -/

/-- Claim C5: `dominates(A, B)` holds iff `A` and `B` share city and
visited set, `A.time ≤ B.time`, `A.cost ≤ B.cost`, and at least one of
the two inequalities is strict; in particular `dominates` is irreflexive
and labels with different visited sets never dominate one another. -/
theorem dominates_characterization :
    (∀ A B : Label, dominates A B = true ↔
      (A.city = B.city ∧ A.visited = B.visited ∧ A.time ≤ B.time ∧
        A.cost ≤ B.cost ∧ (A.time < B.time ∨ A.cost < B.cost)))
    ∧ (∀ L : Label, dominates L L = false)
    ∧ (∀ A B : Label, A.visited ≠ B.visited → dominates A B = false) := by
  refine ⟨fun A B => ?_, fun L => ?_, fun A B h => ?_⟩
  · simp [dominates, and_assoc]
  · simp [dominates]
  · simp [dominates, h]

/-- Witness for the hypothesis of the third conjunct, at the spec's
scenario-5 labels `L(A,5,{B},100)` and `L(A,6,{C},120)`. -/
theorem dominates_characterization_witness :
    (Label.seed "A" 5 {"B"} 100).visited ≠
        (Label.seed "A" 6 {"C"} 120).visited ∧
      dominates (Label.seed "A" 5 {"B"} 100) (Label.seed "A" 6 {"C"} 120)
        = false :=
  ⟨by decide,
    dominates_characterization.2.2 (Label.seed "A" 5 {"B"} 100)
      (Label.seed "A" 6 {"C"} 120) (by decide)⟩

/-! ## C10 — aggregation of an empty validation list -/

/-- Claim C10: On an empty segment-validation list `_aggregate_validations`
returns — rather than raising — the `RouteValidation` with status
`ApiError`, no segments, cached total `0`, no live total, and average
confidence `0`. -/
theorem aggregate_validations_empty (rid : Nat) (ems : ℚ) :
    aggregate_validations rid [] ems =
      { route_id := rid
        status := .api_error
        segments := []
        total_cached_price := 0
        total_live_price := none
        average_confidence := 0
        validation_time_ms := ems } := rfl

/-! ## C9 — live total and average confidence -/

/-- When every stored live price is `some`, reading them back with
`getD` recovers exactly the list of prices. -/
theorem map_getD_of_map_some (xs : List SegmentValidation) :
    ∀ ps : List ℚ, xs.map (·.live_price) = ps.map some →
      xs.map (fun sv => sv.live_price.getD 0) = ps := by
  induction xs with
  | nil =>
    intro ps h
    cases ps with
    | nil => rfl
    | cons p pt => simp at h
  | cons x t ih =>
    intro ps h
    cases ps with
    | nil => simp at h
    | cons p pt =>
      simp only [List.map_cons, List.cons.injEq] at h ⊢
      exact ⟨by simp [h.1], ih pt h.2⟩

/-- Claim C9: For a non-empty segment-validation list, the aggregated
route validation has `total_live_price` equal to the sum of the segment
live prices when every one is present and `None` when at least one is
absent, and `average_confidence` equal to the arithmetic mean of the
segment confidences. -/
theorem aggregate_validations_totals (rid : Nat)
    (xs : List SegmentValidation) (ems : ℚ) (hne : xs ≠ []) :
    (∀ ps : List ℚ, xs.map (·.live_price) = ps.map some →
        (aggregate_validations rid xs ems).total_live_price = some ps.sum)
    ∧ ((∃ sv ∈ xs, sv.live_price = none) →
        (aggregate_validations rid xs ems).total_live_price = none)
    ∧ (aggregate_validations rid xs ems).average_confidence =
        (xs.map (·.confidence)).sum / (xs.length : ℚ) := by
  unfold aggregate_validations
  rw [if_neg hne]
  refine ⟨fun ps h => ?_, fun h => ?_, rfl⟩
  · have hall : xs.all (fun sv => sv.live_price ≠ none) = true := by
      rw [List.all_eq_true]
      intro sv hsv
      have : sv.live_price ∈ xs.map (·.live_price) := List.mem_map_of_mem _ hsv
      rw [h] at this
      obtain ⟨p, _, hp⟩ := List.mem_map.mp this
      simp [← hp]
    simp only [hall, if_true, map_getD_of_map_some xs ps h]
  · obtain ⟨sv, hsv, hnone⟩ := h
    have hall : xs.all (fun sv => sv.live_price ≠ none) = false := by
      rw [List.all_eq_false]
      exact ⟨sv, hsv, by simp [hnone]⟩
    simp only [hall]
    simp

/-- Witness for C9 at a two-segment list with live prices 152 and 76
(scenario 6 of the spec). -/
theorem aggregate_validations_totals_witness :
    ([⟨0, .confirmed, 80, 150, some 152, none, none⟩,
      ⟨1, .confirmed, 90, 75, some 76, none, none⟩] :
        List SegmentValidation) ≠ [] ∧
    (aggregate_validations 0
        [⟨0, .confirmed, 80, 150, some 152, none, none⟩,
         ⟨1, .confirmed, 90, 75, some 76, none, none⟩] 5).total_live_price
      = some ((152 : ℚ) + (76 + 0)) := by
  refine ⟨by simp, ?_⟩
  exact (aggregate_validations_totals 0
    [⟨0, .confirmed, 80, 150, some 152, none, none⟩,
     ⟨1, .confirmed, 90, 75, some 76, none, none⟩] 5 (by simp)).1
    [152, 76] (by simp)

/-! ## C8 — worst-status-wins aggregation -/

/-- Severity determines the status. -/
theorem statusSeverity_inj :
    ∀ s t : ValidationStatus, statusSeverity s = statusSeverity t → s = t := by
  intro s t h
  cases s <;> cases t <;> simp_all [statusSeverity]

/-- Severities lie below `3`. -/
theorem statusSeverity_le_three (s : ValidationStatus) :
    statusSeverity s ≤ 3 := by
  cases s <;> simp [statusSeverity]

/-- The `statusMax` realizes the severity maximum. -/
theorem statusMax_severity (a b : ValidationStatus) :
    statusSeverity (statusMax a b) =
      max (statusSeverity a) (statusSeverity b) := by
  unfold statusMax
  split <;> omega

/-- The severity of the `statusMax` fold is the `max` fold of the
severities. -/
theorem foldl_statusMax_severity (xs : List ValidationStatus) :
    ∀ a, statusSeverity (xs.foldl statusMax a) =
      (xs.map statusSeverity).foldl max (statusSeverity a) := by
  induction xs with
  | nil => intro a; rfl
  | cons x t ih =>
    intro a
    simp only [List.foldl_cons, List.map_cons]
    rw [ih, statusMax_severity]

/-- Every member bounds the `max` fold from below. -/
theorem le_foldl_max (l : List Nat) :
    ∀ (i x : Nat), x ∈ l → x ≤ l.foldl max i := by
  induction l with
  | nil => intro i x hx; cases hx
  | cons y t ih =>
    intro i x hx
    rcases List.mem_cons.mp hx with rfl | hx
    · calc x ≤ max i x := le_max_right _ _
        _ ≤ t.foldl max (max i x) := init_le t _
    · exact ih _ x hx
where
  init_le (l : List Nat) : ∀ i, i ≤ l.foldl max i := by
    induction l with
    | nil => intro i; exact le_rfl
    | cons y t ih =>
      intro i
      calc i ≤ max i y := le_max_left _ _
        _ ≤ t.foldl max (max i y) := ih _

/-- The `max` fold respects an upper bound on the members and the
initial value. -/
theorem foldl_max_le (l : List Nat) :
    ∀ i k, (∀ x ∈ l, x ≤ k) → i ≤ k → l.foldl max i ≤ k := by
  induction l with
  | nil => intro i k _ hik; exact hik
  | cons y t ih =>
    intro i k hall hik
    exact ih _ k (fun x hx => hall x (List.mem_cons_of_mem _ hx))
      (max_le hik (hall y (List.mem_cons_self _ _)))

/-- The severity of `aggregate_route_status` is the maximum severity of
the list. -/
theorem aggregate_severity (xs : List ValidationStatus) :
    statusSeverity (aggregate_route_status xs) =
      (xs.map statusSeverity).foldl max 0 := by
  unfold aggregate_route_status
  by_cases h3 : ValidationStatus.api_error ∈ xs
  · rw [if_pos h3]
    have hlo := le_foldl_max (xs.map statusSeverity) 0 _
      (List.mem_map_of_mem statusSeverity h3)
    have hhi := foldl_max_le (xs.map statusSeverity) 0 3
      (fun x hx => by
        obtain ⟨s, _, rfl⟩ := List.mem_map.mp hx
        exact statusSeverity_le_three s)
      (by omega)
    simp only [statusSeverity] at hlo ⊢
    omega
  rw [if_neg h3]
  by_cases h2 : ValidationStatus.unavailable ∈ xs
  · rw [if_pos h2]
    have hlo := le_foldl_max (xs.map statusSeverity) 0 _
      (List.mem_map_of_mem statusSeverity h2)
    have hhi := foldl_max_le (xs.map statusSeverity) 0 2
      (fun x hx => by
        obtain ⟨s, hs, rfl⟩ := List.mem_map.mp hx
        cases s with
        | api_error => exact absurd hs h3
        | _ => simp [statusSeverity])
      (by omega)
    simp only [statusSeverity] at hlo ⊢
    omega
  rw [if_neg h2]
  by_cases h1 : ValidationStatus.price_changed ∈ xs
  · rw [if_pos h1]
    have hlo := le_foldl_max (xs.map statusSeverity) 0 _
      (List.mem_map_of_mem statusSeverity h1)
    have hhi := foldl_max_le (xs.map statusSeverity) 0 1
      (fun x hx => by
        obtain ⟨s, hs, rfl⟩ := List.mem_map.mp hx
        cases s with
        | api_error => exact absurd hs h3
        | unavailable => exact absurd hs h2
        | _ => simp [statusSeverity])
      (by omega)
    simp only [statusSeverity] at hlo ⊢
    omega
  rw [if_neg h1]
  have hhi := foldl_max_le (xs.map statusSeverity) 0 0
    (fun x hx => by
      obtain ⟨s, hs, rfl⟩ := List.mem_map.mp hx
      cases s with
      | api_error => exact absurd hs h3
      | unavailable => exact absurd hs h2
      | price_changed => exact absurd hs h1
      | confirmed => simp [statusSeverity])
    le_rfl
  simp only [statusSeverity]
  omega

/-- Claim C8: `aggregate_route_status` of a non-empty list is the worst
status under `ApiError > Unavailable > PriceChanged > Confirmed`; it is
invariant under permutation; and an all-`Confirmed` list aggregates to
`Confirmed`. -/
theorem aggregate_route_status_spec :
    (∀ xs : List ValidationStatus, xs ≠ [] →
        aggregate_route_status xs = worstStatus xs)
    ∧ (∀ xs ys : List ValidationStatus, xs.Perm ys →
        aggregate_route_status xs = aggregate_route_status ys)
    ∧ (∀ xs : List ValidationStatus, xs ≠ [] →
        (∀ s ∈ xs, s = .confirmed) →
        aggregate_route_status xs = .confirmed) := by
  refine ⟨fun xs _ => ?_, fun xs ys h => ?_, fun xs _ hall => ?_⟩
  · apply statusSeverity_inj
    rw [aggregate_severity]
    unfold worstStatus
    rw [foldl_statusMax_severity]
    rfl
  · unfold aggregate_route_status
    simp only [h.mem_iff]
  · have h3 : ValidationStatus.api_error ∉ xs := fun hm => by
      have := hall _ hm; exact absurd this (by decide)
    have h2 : ValidationStatus.unavailable ∉ xs := fun hm => by
      have := hall _ hm; exact absurd this (by decide)
    have h1 : ValidationStatus.price_changed ∉ xs := fun hm => by
      have := hall _ hm; exact absurd this (by decide)
    unfold aggregate_route_status
    rw [if_neg h3, if_neg h2, if_neg h1]

/-- Witness for C8: all three parts applied at concrete status lists. -/
theorem aggregate_route_status_spec_witness :
    aggregate_route_status [.price_changed, .api_error, .confirmed]
        = worstStatus [.price_changed, .api_error, .confirmed]
    ∧ aggregate_route_status [.confirmed, .unavailable]
        = aggregate_route_status [.unavailable, .confirmed]
    ∧ aggregate_route_status [.confirmed, .confirmed] = .confirmed :=
  ⟨aggregate_route_status_spec.1 [.price_changed, .api_error, .confirmed]
      (by simp),
    aggregate_route_status_spec.2.1 [.confirmed, .unavailable]
      [.unavailable, .confirmed] (List.Perm.swap _ _ _),
    aggregate_route_status_spec.2.2 [.confirmed, .confirmed] (by simp)
      (by decide)⟩

/-! ## C4 — frontier insertion invariant -/

/-- The `dominates` is irreflexive. -/
theorem dominates_irrefl (l : Label) : dominates l l = false := by
  simp [dominates]

/-- Erasing elements all different from the head commutes with the
head. -/
theorem foldl_erase_cons_of_ne (a : Label) :
    ∀ (rs t : List Label), (∀ r ∈ rs, r ≠ a) →
      rs.foldl (fun acc r => acc.erase r) (a :: t)
        = a :: rs.foldl (fun acc r => acc.erase r) t := by
  intro rs
  induction rs with
  | nil => intro t _; rfl
  | cons r rt ih =>
    intro t h
    simp only [List.foldl_cons]
    rw [List.erase_cons_tail (by
      have : r ≠ a := h r (List.mem_cons_self _ _)
      simp [this.symm])]
    exact ih _ (fun x hx => h x (List.mem_cons_of_mem _ hx))

/-- Erasing, one by one, every element satisfying `p` from a list leaves
the elements not satisfying `p` — the net effect of the source's
`to_remove` / `list.remove` loop. -/
theorem foldl_erase_filter (p : Label → Bool) :
    ∀ l : List Label,
      (l.filter p).foldl (fun acc r => acc.erase r) l
        = l.filter (fun a => !p a) := by
  intro l
  induction l with
  | nil => rfl
  | cons a t ih =>
    by_cases hpa : p a = true
    · rw [List.filter_cons_of_pos hpa, List.filter_cons_of_neg (by simp [hpa])]
      simp only [List.foldl_cons, List.erase_cons_head]
      exact ih
    · rw [List.filter_cons_of_neg (by simp at hpa ⊢; exact hpa),
        List.filter_cons_of_pos (by simp at hpa ⊢; exact hpa)]
      rw [foldl_erase_cons_of_ne a _ t (fun r hr hra => by
        have := (List.mem_filter.mp hr).2
        rw [hra] at this
        exact absurd this (by simp [hpa]))]
      rw [ih]

/-- Claim C4: `try_insert_label` returns `False` and leaves the list
unchanged when an existing label dominates the candidate; otherwise it
removes every existing label dominated by the candidate and appends the
candidate; and it preserves the frontier invariant that no label of the
list dominates another label of the list. -/
theorem try_insert_label_spec (labels_at_state : List Label)
    (new_label : Label) :
    ((∃ e ∈ labels_at_state, dominates e new_label = true) →
        try_insert_label labels_at_state new_label
          = (false, labels_at_state))
    ∧ ((∀ e ∈ labels_at_state, dominates e new_label = false) →
        try_insert_label labels_at_state new_label
          = (true, labels_at_state.filter
              (fun e => !dominates new_label e) ++ [new_label]))
    ∧ (NoDominated labels_at_state →
        NoDominated (try_insert_label labels_at_state new_label).2) := by
  have h1 : (∃ e ∈ labels_at_state, dominates e new_label = true) →
      try_insert_label labels_at_state new_label
        = (false, labels_at_state) := by
    intro hex
    unfold try_insert_label
    rw [if_pos]
    rw [List.any_eq_true]
    obtain ⟨e, he, hde⟩ := hex
    exact ⟨e, he, hde⟩
  have h2 : (∀ e ∈ labels_at_state, dominates e new_label = false) →
      try_insert_label labels_at_state new_label
        = (true, labels_at_state.filter
            (fun e => !dominates new_label e) ++ [new_label]) := by
    intro hnone
    unfold try_insert_label
    rw [if_neg (by
      rw [List.any_eq_true]
      rintro ⟨e, he, hde⟩
      rw [hnone e he] at hde
      cases hde)]
    show (true,
      (labels_at_state.filter (fun existing => dominates new_label existing)).foldl
        (fun acc r => acc.erase r) labels_at_state ++ [new_label]) = _
    rw [foldl_erase_filter]
  refine ⟨h1, h2, fun hnd => ?_⟩
  by_cases hc : ∃ e ∈ labels_at_state, dominates e new_label = true
  · rw [h1 hc]
    exact hnd
  · push_neg at hc
    rw [h2 (fun e he => by simpa using hc e he)]
    intro a ha b hb
    rcases List.mem_append.mp ha with ha | ha <;>
      rcases List.mem_append.mp hb with hb | hb
    · exact hnd a (List.mem_filter.mp ha).1 b (List.mem_filter.mp hb).1
    · rw [List.mem_singleton.mp hb]
      have hna := hc a (List.mem_filter.mp ha).1
      simpa using hna
    · rw [List.mem_singleton.mp ha]
      have := (List.mem_filter.mp hb).2
      simp only [Bool.not_eq_true'] at this
      exact this
    · rw [List.mem_singleton.mp ha, List.mem_singleton.mp hb]
      exact dominates_irrefl new_label

/-- Witness for C4: the three parts at concrete one-element frontiers. -/
theorem try_insert_label_spec_witness :
    ((∃ e ∈ [Label.seed "A" 4 ∅ 9], dominates e (Label.seed "A" 5 ∅ 10) = true) ∧
      try_insert_label [Label.seed "A" 4 ∅ 9] (Label.seed "A" 5 ∅ 10)
        = (false, [Label.seed "A" 4 ∅ 9]))
    ∧ ((∀ e ∈ [Label.seed "A" 4 ∅ 12],
          dominates e (Label.seed "A" 5 ∅ 10) = false) ∧
      try_insert_label [Label.seed "A" 4 ∅ 12] (Label.seed "A" 5 ∅ 10)
        = (true, [Label.seed "A" 4 ∅ 12, Label.seed "A" 5 ∅ 10]))
    ∧ (NoDominated [Label.seed "A" 4 ∅ 12] ∧
      NoDominated
        (try_insert_label [Label.seed "A" 4 ∅ 12]
          (Label.seed "A" 5 ∅ 10)).2) := by
  refine ⟨⟨by decide, ?_⟩, ⟨by decide, ?_⟩, by decide, ?_⟩
  · exact (try_insert_label_spec [Label.seed "A" 4 ∅ 9]
      (Label.seed "A" 5 ∅ 10)).1 (by decide)
  · have := (try_insert_label_spec [Label.seed "A" 4 ∅ 12]
      (Label.seed "A" 5 ∅ 10)).2.1 (by decide)
    rw [this]
    decide
  · exact (try_insert_label_spec [Label.seed "A" 4 ∅ 12]
      (Label.seed "A" 5 ∅ 10)).2.2 (by decide)

/-! ## C3 — feasibility with minimum stay -/

/-- Membership in `get_feasible_indices`: exactly the positions whose
row departs at or after `current_time` and arrives by `t_max`. -/
theorem mem_get_feasible_indices (flights : List Flight)
    (current_time t_max : Int) (i : Nat) :
    i ∈ get_feasible_indices flights current_time t_max ↔
      ∃ f, flights.get? i = some f ∧
        current_time ≤ f.dep_time ∧ f.arr_time ≤ t_max := by
  unfold get_feasible_indices
  rw [List.mem_filter, List.mem_range]
  constructor
  · rintro ⟨hr, hp⟩
    cases hf : flights.get? i with
    | none => rw [hf] at hp; cases hp
    | some f =>
      rw [hf] at hp
      simp only [Bool.and_eq_true, decide_eq_true_eq] at hp
      exact ⟨f, rfl, hp.1, hp.2⟩
  · rintro ⟨f, hf, hd, ha⟩
    refine ⟨?_, ?_⟩
    · exact (List.get?_eq_some.mp hf).1
    · rw [hf]
      simp [hd, ha]

/-- Claim C3: With the minimum-stay rule, a flight of the block at `city`
is feasible for a label arriving at `time` iff it departs no earlier
than `time + stay_minutes_for(city)` and arrives by `t_max`, where the
stay is `0` for the origin and for cities outside the required set, and
the configured minimum stay for required cities; in scenario 4 with
`min_stay = 720`, only the day-2 return flight (index 1) is feasible. -/
theorem min_stay_feasibility :
    (∀ (start_city : String) (required : Finset String) (min_stay : Int)
        (city : String) (flights : List Flight) (time t_max : Int)
        (i : Nat),
        i ∈ feasible_indices_with_stay start_city required min_stay city
            flights time t_max ↔
          ∃ f, flights.get? i = some f ∧
            time + stay_minutes_for start_city required min_stay city
              ≤ f.dep_time ∧
            f.arr_time ≤ t_max)
    ∧ (∀ (start_city : String) (required : Finset String) (min_stay : Int)
        (city : String),
        (city = start_city ∨ city ∉ required →
          stay_minutes_for start_city required min_stay city = 0)
        ∧ (city ≠ start_city → city ∈ required →
          stay_minutes_for start_city required min_stay city = min_stay))
    ∧ feasible_indices_with_stay "WAW" {"BCN"} 720 "BCN"
        scenario4BcnFlights 660 3000 = [1]
    ∧ feasible_indices_with_stay "WAW" {"BCN"} 0 "BCN"
        scenario4BcnFlights 660 3000 = [0, 1] := by
  refine ⟨fun s r m c fl t tm i => ?_, fun s r m c => ⟨?_, ?_⟩, by decide,
    by decide⟩
  · exact mem_get_feasible_indices fl _ tm i
  · intro h
    unfold stay_minutes_for
    rcases h with h | h
    · rw [if_pos h]
    · by_cases hs : c = s
      · rw [if_pos hs]
      · rw [if_neg hs, if_neg h]
  · intro hs hr
    unfold stay_minutes_for
    rw [if_neg hs, if_pos hr]

/-- Witness for C3: the hypotheses of the second conjunct discharged at
the scenario-4 data (`BCN` is required and distinct from the origin
`WAW`). -/
theorem min_stay_feasibility_witness :
    stay_minutes_for "WAW" {"BCN"} 720 "BCN" = 720 ∧
      stay_minutes_for "WAW" {"BCN"} 720 "WAW" = 0 :=
  ⟨(min_stay_feasibility.2.1 "WAW" {"BCN"} 720 "BCN").2 (by decide)
      (by decide),
    (min_stay_feasibility.2.1 "WAW" {"BCN"} 720 "WAW").1 (Or.inl rfl)⟩

/-! ## C7 — week offsets -/

/-- The candidate offsets are exactly `7·w` for
`w ∈ [-weeks_before, weeks_after]`. -/
theorem mem_week_offset_candidates (wb wa : Nat) (k : Int) :
    k ∈ week_offset_candidates wb wa ↔
      ∃ w : Int, k = w * 7 ∧ -(wb : Int) ≤ w ∧ w ≤ (wa : Int) := by
  unfold week_offset_candidates
  rw [List.mem_map]
  constructor
  · rintro ⟨i, hi, rfl⟩
    rw [List.mem_range] at hi
    exact ⟨(i : Int) - wb, rfl, by omega, by omega⟩
  · rintro ⟨w, rfl, h1, h2⟩
    refine ⟨(w + wb).toNat, List.mem_range.mpr (by omega), ?_⟩
    have hc : (((w + (wb : Int)).toNat : Int)) = w + wb := by omega
    rw [hc]
    ring

/-- A week whose translation still meets the window from below cannot
lie before `-weeks_before` weeks. -/
theorem weeks_before_lower (base_start base_end t_min : ℚ)
    (hlen : base_end - base_start < MINUTES_PER_WEEK) (w : Int)
    (hov : t_min ≤ base_end + ((w * 7 : Int) : ℚ) * MINUTES_PER_DAY) :
    -(weeks_before_count base_start t_min : Int) ≤ w := by
  have hD : MINUTES_PER_DAY = 1440 := by norm_num [MINUTES_PER_DAY]
  have hW : MINUTES_PER_WEEK = 10080 := by
    norm_num [MINUTES_PER_WEEK, MINUTES_PER_DAY]
  rw [hW] at hlen
  rw [hD] at hov
  push_cast at hov
  unfold weeks_before_count
  split
  · rename_i ht
    rw [hW]
    have hppos : (0 : ℚ) ≤ (base_start - t_min) / 10080 := by
      apply div_nonneg (by linarith) (by norm_num)
    have hfl0 : (0 : Int) ≤ ⌊(base_start - t_min) / 10080⌋ :=
      Int.floor_nonneg.mpr hppos
    by_contra hcon
    push_neg at hcon
    have hwle : w ≤ -⌊(base_start - t_min) / 10080⌋ - 2 := by omega
    have hwle' : (w : ℚ) ≤ -((⌊(base_start - t_min) / 10080⌋ : Int) : ℚ) - 2 := by
      exact_mod_cast hwle
    have h1 : (base_start - t_min) / 10080 <
        ((⌊(base_start - t_min) / 10080⌋ : Int) : ℚ) + 1 :=
      Int.lt_floor_add_one _
    linarith
  · rename_i ht
    push_neg at ht
    simp only [Nat.cast_zero, neg_zero]
    by_contra hcon
    push_neg at hcon
    have hw1 : (w : ℚ) ≤ -1 := by exact_mod_cast (by omega : w ≤ -1)
    linarith

/-- A week whose translation still meets the window from above cannot
lie past `weeks_after` weeks. -/
theorem weeks_after_upper (base_start base_end t_max : ℚ)
    (hlen : base_end - base_start < MINUTES_PER_WEEK) (w : Int)
    (hov : base_start + ((w * 7 : Int) : ℚ) * MINUTES_PER_DAY ≤ t_max) :
    w ≤ (weeks_after_count base_end t_max : Int) := by
  have hD : MINUTES_PER_DAY = 1440 := by norm_num [MINUTES_PER_DAY]
  have hW : MINUTES_PER_WEEK = 10080 := by
    norm_num [MINUTES_PER_WEEK, MINUTES_PER_DAY]
  rw [hW] at hlen
  rw [hD] at hov
  push_cast at hov
  unfold weeks_after_count
  split
  · rename_i ht
    rw [hW]
    have hppos : (0 : ℚ) ≤ (t_max - base_end) / 10080 := by
      apply div_nonneg (by linarith) (by norm_num)
    have hfl0 : (0 : Int) ≤ ⌊(t_max - base_end) / 10080⌋ :=
      Int.floor_nonneg.mpr hppos
    by_contra hcon
    push_neg at hcon
    have hwge : ⌊(t_max - base_end) / 10080⌋ + 2 ≤ w := by omega
    have hwge' : ((⌊(t_max - base_end) / 10080⌋ : Int) : ℚ) + 2 ≤ (w : ℚ) := by
      exact_mod_cast hwge
    have h1 : (t_max - base_end) / 10080 <
        ((⌊(t_max - base_end) / 10080⌋ : Int) : ℚ) + 1 :=
      Int.lt_floor_add_one _
    linarith
  · rename_i ht
    push_neg at ht
    simp only [Nat.cast_zero]
    by_contra hcon
    push_neg at hcon
    have hw1 : (1 : ℚ) ≤ (w : ℚ) := by exact_mod_cast (by omega : 1 ≤ w)
    linarith

/-- Membership in the returned offsets, for any base week shorter than a
whole week: exactly the multiples of 7 whose translated week meets the
window. -/
theorem mem_get_week_offsets_for_range
    (base_start base_end t_min t_max : ℚ)
    (hlen : base_end - base_start < MINUTES_PER_WEEK) (w : Int) :
    w * 7 ∈ get_week_offsets_for_range base_start base_end t_min t_max ↔
      (t_min ≤ base_end + ((w * 7 : Int) : ℚ) * MINUTES_PER_DAY ∧
        base_start + ((w * 7 : Int) : ℚ) * MINUTES_PER_DAY ≤ t_max) := by
  unfold get_week_offsets_for_range
  rw [(List.perm_insertionSort _ _).mem_iff, List.mem_filter]
  constructor
  · rintro ⟨_, hp⟩
    unfold week_overlaps at hp
    simp only [Bool.and_eq_true, decide_eq_true_eq] at hp
    exact hp
  · intro hp
    refine ⟨(mem_week_offset_candidates _ _ _).mpr
        ⟨w, rfl, weeks_before_lower base_start base_end t_min hlen w hp.1,
          weeks_after_upper base_start base_end t_max hlen w hp.2⟩, ?_⟩
    unfold week_overlaps
    simp only [Bool.and_eq_true, decide_eq_true_eq]
    exact hp

/-- Claim C7: For `t_min ≤ t_max`, the service's
`get_week_offsets_for_range` returns a sorted list of day offsets, each
a multiple of 7; an offset `7·w` is in the list iff the translated week
`[W_start + 7w·1440, W_end + 7w·1440]` meets `[t_min, t_max]`; and `0`
is in the list iff the base week itself meets the window. -/
theorem get_week_offsets_spec (t_min t_max : ℚ) (_h : t_min ≤ t_max) :
    List.Sorted (· ≤ ·) (service_get_week_offsets_for_range t_min t_max)
    ∧ (∀ k ∈ service_get_week_offsets_for_range t_min t_max, (7 : Int) ∣ k)
    ∧ (∀ w : Int,
        w * 7 ∈ service_get_week_offsets_for_range t_min t_max ↔
          (t_min ≤ BASE_WEEK_END_MINUTES
              + ((w * 7 : Int) : ℚ) * MINUTES_PER_DAY ∧
            BASE_WEEK_START_MINUTES
              + ((w * 7 : Int) : ℚ) * MINUTES_PER_DAY ≤ t_max))
    ∧ ((0 : Int) ∈ service_get_week_offsets_for_range t_min t_max ↔
        (t_min ≤ BASE_WEEK_END_MINUTES ∧ BASE_WEEK_START_MINUTES ≤ t_max)) := by
  have hlen : BASE_WEEK_END_MINUTES - BASE_WEEK_START_MINUTES
      < MINUTES_PER_WEEK := by
    norm_num [BASE_WEEK_END_MINUTES, BASE_WEEK_START_MINUTES,
      MINUTES_PER_WEEK, MINUTES_PER_DAY]
  refine ⟨?_, fun k hk => ?_, fun w => ?_, ?_⟩
  · exact List.sorted_insertionSort _ _
  · unfold service_get_week_offsets_for_range get_week_offsets_for_range at hk
    rw [(List.perm_insertionSort _ _).mem_iff, List.mem_filter] at hk
    obtain ⟨w, rfl, -, -⟩ := (mem_week_offset_candidates _ _ _).mp hk.1
    exact ⟨w, mul_comm w 7⟩
  · exact mem_get_week_offsets_for_range _ _ t_min t_max hlen w
  · have h0 := mem_get_week_offsets_for_range BASE_WEEK_START_MINUTES
      BASE_WEEK_END_MINUTES t_min t_max hlen 0
    rw [zero_mul] at h0
    unfold service_get_week_offsets_for_range
    rw [h0]
    norm_num

/-- Witness for C7 at the docstring example: the window
2026-07-20 .. 2026-08-10 (epoch minutes 1340640 .. 1370880) needs the
four weeks after the base week and not the base week itself. -/
theorem get_week_offsets_spec_witness :
    List.Sorted (· ≤ ·) (service_get_week_offsets_for_range 1340640 1370880)
    ∧ service_get_week_offsets_for_range 1340640 1370880
        = [7, 14, 21, 28] := by
  refine ⟨(get_week_offsets_spec 1340640 1370880 (by norm_num)).1, ?_⟩
  have hwb : weeks_before_count BASE_WEEK_START_MINUTES 1340640 = 0 := by
    unfold weeks_before_count BASE_WEEK_START_MINUTES
    norm_num
  have hwa : weeks_after_count BASE_WEEK_END_MINUTES 1370880 = 4 := by
    unfold weeks_after_count BASE_WEEK_END_MINUTES MINUTES_PER_WEEK
      MINUTES_PER_DAY
    rw [if_pos (by norm_num)]
    norm_num [Int.floor_eq_iff]
    decide
  have hcand : week_offset_candidates 0 4 = [0, 7, 14, 21, 28] := by decide
  have hfilter : [(0 : Int), 7, 14, 21, 28].filter
      (week_overlaps BASE_WEEK_START_MINUTES BASE_WEEK_END_MINUTES
        1340640 1370880) = [7, 14, 21, 28] := by
    unfold week_overlaps BASE_WEEK_START_MINUTES BASE_WEEK_END_MINUTES
      MINUTES_PER_DAY
    norm_num [List.filter_cons, Bool.and_eq_true, decide_eq_true_eq]
  unfold service_get_week_offsets_for_range get_week_offsets_for_range
  rw [hwb, hwa, hcand, hfilter]
  decide

/-! ## C1/C2 groundwork — reconstruction of reachable labels -/

/-- Reconstruction of the flight list of an expansion step. -/
theorem routeFlights_step (c : String) (t : Int) (v : Finset String)
    (k : Int) (prev : Label) (f : Flight) :
    routeFlights (.step c t v k prev f) = routeFlights prev ++ [f] := rfl

/-- Every label the search can construct reconstructs to an
adjacency-consistent flight list that starts at the origin, ends at the
label's city and time, and whose prices sum to the label's cost. -/
theorem reaches_reconstruct {start : String} {required : Finset String}
    {T_min T_max : Int} {fbc : String → List Flight} {l : Label}
    (h : Reaches start required T_min T_max fbc l) :
    adjacencyConsistent (routeFlights l)
    ∧ (∀ f, (routeFlights l).head? = some f → f.departure_airport = start)
    ∧ (∀ f, (routeFlights l).getLast? = some f →
        f.arrival_airport = l.city ∧ f.arr_time = l.time)
    ∧ (routeFlights l = [] → l.city = start ∧ l.time = T_min)
    ∧ route_total_cost l = l.cost := by
  induction h with
  | seed =>
    refine ⟨?_, ?_, ?_, ?_, ?_⟩ <;>
      simp [routeFlights, reconstruct_path, adjacencyConsistent,
        route_total_cost, Label.city, Label.time, Label.cost]
  | step prev f hprev hmem hdep harr ih =>
    obtain ⟨ih1, ih2, ih3, ih4, ih5⟩ := ih
    rw [routeFlights_step] at *
    refine ⟨?_, ?_, ?_, ?_, ?_⟩
    · unfold adjacencyConsistent at ih1 ⊢
      rw [List.chain'_append]
      refine ⟨ih1, List.chain'_singleton _, fun x hx y hy => ?_⟩
      rw [Option.mem_def] at hx hy
      simp only [List.head?_cons, Option.some.injEq] at hy
      subst hy
      have h3 := ih3 x hx
      exact ⟨by simp [h3.1, Label.city], by
        simp only []
        rw [h3.2]
        exact hdep⟩
    · intro f0 hf0
      cases hfs : routeFlights prev with
      | nil =>
        rw [hfs] at hf0
        simp only [List.nil_append, List.head?_cons, Option.some.injEq] at hf0
        subst hf0
        exact (ih4 hfs).1.symm ▸ rfl
      | cons a t =>
        rw [hfs] at hf0
        simp only [List.cons_append, List.head?_cons, Option.some.injEq] at hf0
        subst hf0
        exact ih2 _ (by rw [hfs]; rfl)
    · intro f0 hf0
      rw [List.getLast?_concat] at hf0
      injection hf0 with hf0
      subst hf0
      exact ⟨rfl, rfl⟩
    · intro habs
      exact absurd habs (by simp)
    · unfold route_total_cost at ih5 ⊢
      rw [routeFlights_step, List.map_append, List.sum_append, ih5]
      simp [Label.cost]

/-- The arrival time of a reachable solution is the label's `time`. -/
theorem reaches_end_time {start : String} {required : Finset String}
    {T_min T_max : Int} {fbc : String → List Flight} {l : Label}
    (h : Reaches start required T_min T_max fbc l) :
    route_end_time l = l.time := by
  unfold route_end_time
  cases hg : (routeFlights l).getLast? with
  | none => rfl
  | some g => exact ((reaches_reconstruct h).2.2.1 g hg).2

/-! ## C1/C2 groundwork — Pareto filter structure -/

/-- The skyline sweep only keeps elements of its input. -/
theorem skyline_sublist : ∀ (xs : List Label) (m : Option Int),
    List.Sublist (skyline xs m) xs := by
  intro xs
  induction xs with
  | nil => intro m; exact List.Sublist.refl _
  | cons l rest ih =>
    intro m
    unfold skyline
    by_cases h : ltMinTime l.time m = true
    · rw [if_pos h]
      exact (ih (some l.time)).cons₂ l
    · rw [if_neg h]
      exact (ih m).cons l

/-- Skyline elements beat the running minimum, and the kept times are
strictly decreasing. -/
theorem skyline_decreasing : ∀ (xs : List Label) (m : Option Int),
    List.Pairwise (fun a b => b.time < a.time) (skyline xs m)
    ∧ ∀ x ∈ skyline xs m, ltMinTime x.time m = true := by
  intro xs
  induction xs with
  | nil => intro m; exact ⟨List.Pairwise.nil, by intro x hx; cases hx⟩
  | cons l rest ih =>
    intro m
    unfold skyline
    by_cases h : ltMinTime l.time m = true
    · rw [if_pos h]
      have hrest := ih (some l.time)
      refine ⟨List.Pairwise.cons (fun y hy => ?_) hrest.1, ?_⟩
      · have := hrest.2 y hy
        unfold ltMinTime at this
        exact of_decide_eq_true this
      · intro x hx
        rcases List.mem_cons.mp hx with rfl | hx
        · exact h
        · have hxl := hrest.2 x hx
          unfold ltMinTime at hxl h ⊢
          cases m with
          | none => rfl
          | some mt =>
            have h1 := of_decide_eq_true hxl
            have h2 := of_decide_eq_true h
            exact decide_eq_true (lt_trans h1 h2)
    · rw [if_neg h]
      exact ih m

/-- The output of one Pareto group (stable sort by `(cost, time)`, then
skyline) is pairwise ordered: cost weakly increasing by the sort order
and time strictly decreasing. -/
theorem pareto_group_pairwise (g : List Label) :
    List.Pairwise (fun a b => leCostTime a b ∧ b.time < a.time)
      (skyline (List.insertionSort leCostTime g) none) := by
  have hs : List.Pairwise leCostTime (List.insertionSort leCostTime g) :=
    List.sorted_insertionSort leCostTime g
  have h1 := hs.sublist (skyline_sublist (List.insertionSort leCostTime g) none)
  have h2 := (skyline_decreasing (List.insertionSort leCostTime g) none).1
  exact h1.and h2

/-- Within one Pareto group's output, no label weakly dominates another
on `(cost, time)` with a strict improvement. -/
theorem pareto_group_no_dom (g : List Label) (a b : Label)
    (ha : a ∈ skyline (List.insertionSort leCostTime g) none)
    (hb : b ∈ skyline (List.insertionSort leCostTime g) none) :
    ¬(a.cost ≤ b.cost ∧ a.time ≤ b.time ∧
      (a.cost < b.cost ∨ a.time < b.time)) := by
  have hp : List.Pairwise
      (fun x y : Label =>
        (leCostTime x y ∧ y.time < x.time) ∨
          (leCostTime y x ∧ x.time < y.time))
      (skyline (List.insertionSort leCostTime g) none) :=
    (pareto_group_pairwise g).imp (fun h => Or.inl h)
  by_cases hab : a = b
  · subst hab
    rintro ⟨-, -, h | h⟩ <;> exact absurd h (lt_irrefl _)
  · have hsym : Symmetric (fun x y : Label =>
        (leCostTime x y ∧ y.time < x.time) ∨
          (leCostTime y x ∧ x.time < y.time)) := by
      intro x y h
      exact h.symm
    have := hp.forall hsym ha hb hab
    rintro ⟨hc, ht, hstrict⟩
    rcases this with ⟨hle, hlt⟩ | ⟨hle, hlt⟩
    · exact absurd ht (not_le.mpr hlt)
    · rcases hle with hlt2 | ⟨-, hble⟩
      · exact absurd hc (not_le.mpr hlt2)
      · exact absurd hlt (not_lt.mpr hble)

/-- Pareto-filter output is a subset of its input. -/
theorem mem_pareto_filter {x : Label} {ls : List Label}
    (h : x ∈ pareto_filter ls) : x ∈ ls := by
  unfold pareto_filter at h
  rw [List.mem_flatMap] at h
  obtain ⟨k, -, hx⟩ := h
  have hmem := (skyline_sublist _ _).mem hx
  rw [(List.perm_insertionSort _ _).mem_iff] at hmem
  exact (List.mem_filter.mp hmem).1

/-- A Pareto-filter output element belongs to the group of its own key. -/
theorem pareto_filter_key {x : Label} {ls : List Label}
    {k : String × Finset String}
    (hk : x ∈ skyline
      (List.insertionSort leCostTime (ls.filter (fun l => groupKey l = k)))
      none) :
    groupKey x = k := by
  have hmem := (skyline_sublist _ _).mem hk
  rw [(List.perm_insertionSort _ _).mem_iff] at hmem
  exact of_decide_eq_true (List.mem_filter.mp hmem).2

/-- Across the whole Pareto-filter output, elements with the same
`(city, visited)` key never weakly-strictly dominate each other on
`(cost, time)`. -/
theorem pareto_filter_no_dom {ls : List Label} {a b : Label}
    (ha : a ∈ pareto_filter ls) (hb : b ∈ pareto_filter ls)
    (hkey : groupKey a = groupKey b) :
    ¬(a.cost ≤ b.cost ∧ a.time ≤ b.time ∧
      (a.cost < b.cost ∨ a.time < b.time)) := by
  unfold pareto_filter at ha hb
  rw [List.mem_flatMap] at ha hb
  obtain ⟨k1, -, hx1⟩ := ha
  obtain ⟨k2, -, hx2⟩ := hb
  have hk1 := pareto_filter_key hx1
  have hk2 := pareto_filter_key hx2
  have : k1 = k2 := by rw [← hk1, ← hk2, hkey]
  subst this
  exact pareto_group_no_dom _ a b hx1 hx2

/-! ## C1/C2 groundwork — loop soundness -/

/-- A popped entry comes from the queue, and the remaining entries all
come from the queue. -/
theorem popMin_mem : ∀ {pq : List (Int × Int × Label)}
    {e : Int × Int × Label} {rest : List (Int × Int × Label)},
    popMin pq = some (e, rest) → e ∈ pq ∧ ∀ x ∈ rest, x ∈ pq := by
  intro pq
  induction pq with
  | nil => intro e rest h; cases h
  | cons x xs ih =>
    intro e rest h
    unfold popMin at h
    cases hxs : popMin xs with
    | none =>
      rw [hxs] at h
      simp only [Option.some.injEq, Prod.mk.injEq] at h
      obtain ⟨rfl, rfl⟩ := h
      exact ⟨List.mem_cons_self _ _, fun y hy => absurd hy (List.not_mem_nil y)⟩
    | some pr =>
      obtain ⟨m, r⟩ := pr
      rw [hxs] at h
      have hm := ih hxs
      have h' : (if pqKeyLt m x = true then some (m, x :: r)
          else some (x, xs)) = some (e, rest) := h
      by_cases hlt : pqKeyLt m x = true
      · rw [if_pos hlt] at h'
        simp only [Option.some.injEq, Prod.mk.injEq] at h'
        obtain ⟨rfl, rfl⟩ := h'
        refine ⟨List.mem_cons_of_mem _ hm.1, fun y hy => ?_⟩
        rcases List.mem_cons.mp hy with rfl | hy
        · exact List.mem_cons_self _ _
        · exact List.mem_cons_of_mem _ (hm.2 y hy)
      · rw [if_neg hlt] at h'
        simp only [Option.some.injEq, Prod.mk.injEq] at h'
        obtain ⟨rfl, rfl⟩ := h'
        exact ⟨List.mem_cons_self _ _, fun y hy => List.mem_cons_of_mem _ hy⟩

/-- The `expandOne` leaves the queue unchanged or appends the stepped
label's entry. -/
theorem expandOne_pq (required_cities : Finset String) (label : Label)
    (st : SearchState) (f : Flight) :
    (expandOne required_cities label st f).pq = st.pq ∨
      (expandOne required_cities label st f).pq
        = st.pq ++ [(label.cost + f.price, f.arr_time,
            stepLabel required_cities label f)] := by
  unfold expandOne
  split
  · exact Or.inr rfl
  · exact Or.inl rfl

/-- The `expandOne` leaves the recorded solutions unchanged. -/
theorem expandOne_solutions (required_cities : Finset String)
    (label : Label) (st : SearchState) (f : Flight) :
    (expandOne required_cities label st f).solutions = st.solutions := by
  unfold expandOne
  split <;> rfl

/-- Folding `expandOne` over feasible rows of the label's city preserves
reachability of every queue entry. -/
theorem foldl_expandOne_sound {start_city : String}
    {required_cities : Finset String} {T_min T_max : Int}
    {flights_by_city : String → List Flight} {label : Label}
    (hlab : Reaches start_city required_cities T_min T_max flights_by_city
      label) :
    ∀ (fl : List Flight),
      (∀ f ∈ fl, f ∈ flights_by_city label.city ∧
        label.time ≤ f.dep_time ∧ f.arr_time ≤ T_max) →
      ∀ (st : SearchState),
        (∀ e ∈ st.pq,
          Reaches start_city required_cities T_min T_max flights_by_city
            e.2.2) →
        ∀ e ∈ (fl.foldl (expandOne required_cities label) st).pq,
          Reaches start_city required_cities T_min T_max flights_by_city
            e.2.2 := by
  intro fl
  induction fl with
  | nil => exact fun _ st hst => hst
  | cons f ft ih =>
    intro hcond st hst
    rw [List.foldl_cons]
    refine ih (fun g hg => hcond g (List.mem_cons_of_mem _ hg)) _ ?_
    intro e he
    rcases expandOne_pq required_cities label st f with hpq | hpq
    · rw [hpq] at he
      exact hst e he
    · rw [hpq] at he
      rcases List.mem_append.mp he with he | he
      · exact hst e he
      · rw [List.mem_singleton.mp he]
        obtain ⟨hmem, hdep, harr⟩ := hcond f (List.mem_cons_self _ _)
        exact Reaches.step label f hlab hmem hdep harr

/-- The `expandLabel` preserves reachability of every queue entry and does
not touch the solutions. -/
theorem expandLabel_sound {start_city : String}
    {required_cities : Finset String} {T_min T_max : Int}
    {flights_by_city : String → List Flight} {label : Label}
    (hlab : Reaches start_city required_cities T_min T_max flights_by_city
      label)
    (st : SearchState)
    (hst : ∀ e ∈ st.pq,
      Reaches start_city required_cities T_min T_max flights_by_city
        e.2.2) :
    ∀ e ∈ (expandLabel required_cities T_max flights_by_city label st).pq,
      Reaches start_city required_cities T_min T_max flights_by_city
        e.2.2 := by
  unfold expandLabel
  refine foldl_expandOne_sound hlab _ (fun f hf => ?_) st hst
  have hm := List.mem_filter.mp hf
  have hcond := hm.2
  simp only [Bool.and_eq_true, decide_eq_true_eq] at hcond
  exact ⟨hm.1, hcond.1, hcond.2⟩

/-- Folding `expandOne` leaves the solutions unchanged. -/
theorem foldl_expandOne_solutions (required_cities : Finset String)
    (label : Label) :
    ∀ (fl : List Flight) (st : SearchState),
      (fl.foldl (expandOne required_cities label) st).solutions
        = st.solutions := by
  intro fl
  induction fl with
  | nil => intro st; rfl
  | cons f ft ih =>
    intro st
    rw [List.foldl_cons, ih, expandOne_solutions]

/-- The `expandLabel` leaves the solutions unchanged. -/
theorem expandLabel_solutions (required_cities : Finset String)
    (T_max : Int) (flights_by_city : String → List Flight) (label : Label)
    (st : SearchState) :
    (expandLabel required_cities T_max flights_by_city label st).solutions
      = st.solutions := by
  unfold expandLabel
  rw [foldl_expandOne_solutions]

/-- Every solution the loop returns is a reachable label at the goal
state `(start_city, required_cities)`, provided the starting state's
queue entries are reachable and its recorded solutions already are
reachable goal labels. -/
theorem dijkstraLoop_sound {start_city : String}
    {required_cities : Finset String} {T_min T_max : Int}
    {flights_by_city : String → List Flight} :
    ∀ (fuel : Nat) (st : SearchState),
      (∀ e ∈ st.pq,
        Reaches start_city required_cities T_min T_max flights_by_city
          e.2.2) →
      (∀ l ∈ st.solutions,
        Reaches start_city required_cities T_min T_max flights_by_city l ∧
          l.city = start_city ∧ l.visited = required_cities) →
      ∀ l ∈ dijkstraLoop start_city required_cities T_max flights_by_city
          fuel st,
        Reaches start_city required_cities T_min T_max flights_by_city l ∧
          l.city = start_city ∧ l.visited = required_cities := by
  intro fuel
  induction fuel with
  | zero => intro st _ hsol; exact hsol
  | succ n ih =>
    intro st hpq hsol
    cases hpop : popMin st.pq with
    | none =>
      have hred : dijkstraLoop start_city required_cities T_max
          flights_by_city (n + 1) st = st.solutions := by
        simp only [dijkstraLoop, hpop]
      rw [hred]
      exact hsol
    | some pr =>
      obtain ⟨e, rest⟩ := pr
      have hred : dijkstraLoop start_city required_cities T_max
          flights_by_city (n + 1) st
          = if T_max < e.2.2.time then
              dijkstraLoop start_city required_cities T_max flights_by_city
                n ⟨st.labels, rest, st.solutions⟩
            else if e.2.2.city = start_city ∧
                e.2.2.visited = required_cities then
              dijkstraLoop start_city required_cities T_max flights_by_city
                n ⟨st.labels, rest, st.solutions ++ [e.2.2]⟩
            else
              dijkstraLoop start_city required_cities T_max flights_by_city
                n (expandLabel required_cities T_max flights_by_city e.2.2
                  ⟨st.labels, rest, st.solutions⟩) := by
        simp only [dijkstraLoop, hpop]
      rw [hred]
      have hmem := popMin_mem hpop
      have hrest : ∀ x ∈ rest, Reaches start_city required_cities T_min
          T_max flights_by_city x.2.2 :=
        fun x hx => hpq x (hmem.2 x hx)
      by_cases htime : T_max < e.2.2.time
      · rw [if_pos htime]
        exact ih ⟨st.labels, rest, st.solutions⟩ hrest hsol
      · rw [if_neg htime]
        by_cases hgoal : e.2.2.city = start_city ∧
            e.2.2.visited = required_cities
        · rw [if_pos hgoal]
          refine ih ⟨st.labels, rest, st.solutions ++ [e.2.2]⟩ hrest ?_
          intro l hl
          rcases List.mem_append.mp hl with hl | hl
          · exact hsol l hl
          · rw [List.mem_singleton.mp hl]
            exact ⟨hpq e hmem.1, hgoal⟩
        · rw [if_neg hgoal]
          refine ih _ ?_ ?_
          · exact expandLabel_sound (hpq e hmem.1)
              ⟨st.labels, rest, st.solutions⟩ hrest
          · intro l hl
            rw [expandLabel_solutions] at hl
            exact hsol l hl

/-! ## C1 — well-formedness of returned solutions -/

/-- Claim C1: Every solution label returned by `dijkstra` reconstructs,
via `reconstruct_path`, to an adjacency-consistent segment list whose
first segment departs from the origin and whose last segment arrives at
the origin, and the solution's visited set contains every required
city. -/
theorem dijkstra_solutions_wellformed (fuel : Nat)
    (flights_df : List Flight) (start_city : String)
    (required_cities : Finset String) (T_min T_max : Int)
    (flights_by_city : String → List Flight) (sols : List Label)
    (l : Label)
    (hrun : dijkstra fuel flights_df start_city required_cities T_min T_max
      flights_by_city = some sols)
    (hl : l ∈ sols) :
    adjacencyConsistent (routeFlights l)
    ∧ (∀ f, (routeFlights l).head? = some f →
        f.departure_airport = start_city)
    ∧ (∀ f, (routeFlights l).getLast? = some f →
        f.arrival_airport = start_city)
    ∧ required_cities ⊆ l.visited := by
  unfold dijkstra at hrun
  by_cases hval : validate_dijkstra_inputs flights_df start_city
      required_cities T_min T_max = true
  case neg =>
    rw [if_neg hval] at hrun
    cases hrun
  rw [if_pos hval] at hrun
  have hrun' : some (pareto_filter
      (dijkstraLoop start_city required_cities T_max flights_by_city fuel
        ⟨[((start_city, ∅), [Label.seed start_city T_min ∅ 0])],
          [(0, T_min, Label.seed start_city T_min ∅ 0)], []⟩))
      = some sols := hrun
  injection hrun' with hrun'
  subst hrun'
  have hmem := mem_pareto_filter hl
  have hsound := dijkstraLoop_sound fuel
    ⟨[((start_city, ∅), [Label.seed start_city T_min ∅ 0])],
      [(0, T_min, Label.seed start_city T_min ∅ 0)], []⟩
    (fun e he => by
      rw [List.mem_singleton.mp he]
      exact Reaches.seed)
    (fun l hl => absurd hl (List.not_mem_nil l))
    l hmem
  obtain ⟨hre, hcity, hvis⟩ := hsound
  obtain ⟨h1, h2, h3, -, -⟩ := reaches_reconstruct hre
  refine ⟨h1, h2, fun f hf => ?_, ?_⟩
  · rw [(h3 f hf).1, hcity]
  · rw [hvis]

/-- Witness for C1: the scenario-2 run returns exactly the single
cheap solution, which satisfies all four conclusions. -/
theorem dijkstra_solutions_wellformed_witness :
    dijkstra 100 scenario2Flights "A" {"D"} 0 100 scenario2Fbc
        = some [scenario2Solution]
    ∧ scenario2Solution ∈ [scenario2Solution]
    ∧ (adjacencyConsistent (routeFlights scenario2Solution)
      ∧ (∀ f, (routeFlights scenario2Solution).head? = some f →
          f.departure_airport = "A")
      ∧ (∀ f, (routeFlights scenario2Solution).getLast? = some f →
          f.arrival_airport = "A")
      ∧ ({"D"} : Finset String) ⊆ scenario2Solution.visited) :=
  ⟨by decide, by decide,
    dijkstra_solutions_wellformed 100 scenario2Flights "A" {"D"} 0 100
      scenario2Fbc [scenario2Solution] scenario2Solution (by decide)
      (by decide)⟩

/-! ## C2 — pairwise non-domination of returned solutions -/

/-- Counterexample to C2 as stated: on `cexFlights` the search returns
two distinct solutions, and the first strictly dominates the second on
`(total_cost, elapsed)` — the cheap solution departs late, so its
elapsed span (last `arr_time` − first `dep_time`) is small even though
it arrives later.  The Pareto filter compares arrival times, not
elapsed spans. -/
theorem dijkstra_elapsed_domination_cex :
    dijkstra 100 cexFlights "A" {"B"} 0 100 cexFbc
        = some [cexSolution1, cexSolution2]
    ∧ cexSolution1 ≠ cexSolution2
    ∧ strictlyDominatesOn route_total_cost route_elapsed
        cexSolution1 cexSolution2 := by
  refine ⟨by decide, by decide, ?_⟩
  unfold strictlyDominatesOn
  decide

/-- Claim C2, amended: For every pair of solutions returned by the
search (after `pareto_filter`), neither strictly dominates the other on
`(total_cost, arrival time)`, where `total_cost` is the sum of segment
prices and the arrival time is the last segment's `arr_time` (the
quantity the Pareto filter actually compares; domination on
`(total_cost, elapsed)` is possible because solutions may depart at
different times). -/
theorem dijkstra_solutions_nondominated (fuel : Nat)
    (flights_df : List Flight) (start_city : String)
    (required_cities : Finset String) (T_min T_max : Int)
    (flights_by_city : String → List Flight) (sols : List Label)
    (a b : Label)
    (hrun : dijkstra fuel flights_df start_city required_cities T_min T_max
      flights_by_city = some sols)
    (ha : a ∈ sols) (hb : b ∈ sols) :
    ¬ strictlyDominatesOn route_total_cost route_end_time a b := by
  unfold dijkstra at hrun
  by_cases hval : validate_dijkstra_inputs flights_df start_city
      required_cities T_min T_max = true
  case neg =>
    rw [if_neg hval] at hrun
    cases hrun
  rw [if_pos hval] at hrun
  have hrun' : some (pareto_filter
      (dijkstraLoop start_city required_cities T_max flights_by_city fuel
        ⟨[((start_city, ∅), [Label.seed start_city T_min ∅ 0])],
          [(0, T_min, Label.seed start_city T_min ∅ 0)], []⟩))
      = some sols := hrun
  injection hrun' with hrun'
  subst hrun'
  have hinit : ∀ e ∈ [((0 : Int), T_min,
      Label.seed start_city T_min ∅ 0)],
      Reaches start_city required_cities T_min T_max flights_by_city
        e.2.2 := fun e he => by
    rw [List.mem_singleton.mp he]
    exact Reaches.seed
  have hsa := dijkstraLoop_sound fuel
    ⟨[((start_city, ∅), [Label.seed start_city T_min ∅ 0])],
      [(0, T_min, Label.seed start_city T_min ∅ 0)], []⟩
    hinit (fun l hl => absurd hl (List.not_mem_nil l)) a
    (mem_pareto_filter ha)
  have hsb := dijkstraLoop_sound fuel
    ⟨[((start_city, ∅), [Label.seed start_city T_min ∅ 0])],
      [(0, T_min, Label.seed start_city T_min ∅ 0)], []⟩
    hinit (fun l hl => absurd hl (List.not_mem_nil l)) b
    (mem_pareto_filter hb)
  have hkey : groupKey a = groupKey b := by
    unfold groupKey
    rw [hsa.2.1, hsa.2.2, hsb.2.1, hsb.2.2]
  have hnd := pareto_filter_no_dom ha hb hkey
  unfold strictlyDominatesOn
  rw [(reaches_reconstruct hsa.1).2.2.2.2, (reaches_reconstruct hsb.1).2.2.2.2,
    reaches_end_time hsa.1, reaches_end_time hsb.1]
  exact hnd

/-- Witness for the amended C2, at the `cexFlights` run: the two
returned solutions do not dominate each other on
`(total_cost, arrival time)`. -/
theorem dijkstra_solutions_nondominated_witness :
    ¬ strictlyDominatesOn route_total_cost route_end_time
        cexSolution1 cexSolution2 :=
  dijkstra_solutions_nondominated 100 cexFlights "A" {"B"} 0 100 cexFbc
    [cexSolution1, cexSolution2] cexSolution1 cexSolution2 (by decide)
    (by decide) (by decide)

/-! ## C6 — the city index -/

/-- Membership in the boundary positions. -/
theorem mem_changeIndices {cities : List String} {i : Nat} :
    i ∈ changeIndices cities ↔
      i < cities.length ∧ isRunStart cities i = true := by
  unfold changeIndices
  rw [List.mem_filter, List.mem_range]

/-- The boundary positions are strictly increasing. -/
theorem changeIndices_sorted (cities : List String) :
    List.Pairwise (· < ·) (changeIndices cities) :=
  (List.pairwise_lt_range _).filter _

/-- For a non-empty table the boundary list starts at position `0`. -/
theorem changeIndices_head (cities : List String) (h : cities ≠ []) :
    ∃ rest, changeIndices cities = 0 :: rest := by
  have h0 : 0 ∈ changeIndices cities := by
    rw [mem_changeIndices]
    exact ⟨List.length_pos.mpr h, by unfold isRunStart; simp⟩
  cases hci : changeIndices cities with
  | nil => rw [hci] at h0; cases h0
  | cons b rest =>
    rw [hci] at h0
    rcases List.mem_cons.mp h0 with hb | h0
    · exact ⟨rest, by rw [← hb]⟩
    · have := changeIndices_sorted cities
      rw [hci] at this
      have hlt := (List.pairwise_cons.mp this).1 0 h0
      omega

/-- The tiling of `[b, n)` by a strictly increasing boundary list
`b :: bs` (all `< n`) zipped with its shifted self: the ranges cover
`[b, n)`, each range is non-empty, starts at a boundary, stays inside
`[b, n]`, closes at the next boundary or at `n`, and contains no
boundary strictly inside. -/
theorem ranges_spec (n : Nat) : ∀ (bs : List Nat) (b : Nat),
    List.Pairwise (· < ·) (b :: bs) →
    (∀ i ∈ b :: bs, i < n) →
    ((∀ j, b ≤ j → j < n →
        ∃ p ∈ (b :: bs).zip (bs ++ [n]), p.1 ≤ j ∧ j < p.2)
    ∧ (∀ p ∈ (b :: bs).zip (bs ++ [n]),
        b ≤ p.1 ∧ p.1 < p.2 ∧ p.2 ≤ n ∧ p.1 ∈ b :: bs ∧
          (p.2 = n ∨ p.2 ∈ b :: bs))
    ∧ (∀ p ∈ (b :: bs).zip (bs ++ [n]), ∀ t, p.1 < t → t < p.2 →
        t ∉ b :: bs)) := by
  intro bs
  induction bs with
  | nil =>
    intro b _ hlt
    refine ⟨fun j hbj hjn => ?_, fun p hp => ?_, fun p hp t ht1 ht2 => ?_⟩
    · exact ⟨(b, n), List.mem_singleton.mpr rfl, hbj, hjn⟩
    · rw [List.mem_singleton.mp hp]
      exact ⟨le_rfl, hlt b (List.mem_singleton.mpr rfl), le_rfl,
        List.mem_singleton.mpr rfl, Or.inl rfl⟩
    · rw [List.mem_singleton.mp hp] at ht1 ht2
      rw [List.mem_singleton]
      omega
  | cons b' bs' ih =>
    intro b hpw hlt
    have hpw' : List.Pairwise (· < ·) (b' :: bs') :=
      (List.pairwise_cons.mp hpw).2
    have hbb' : b < b' :=
      (List.pairwise_cons.mp hpw).1 b' (List.mem_cons_self _ _)
    have hblt : ∀ x ∈ bs', b' < x :=
      (List.pairwise_cons.mp hpw').1
    have hlt' : ∀ i ∈ b' :: bs', i < n :=
      fun i hi => hlt i (List.mem_cons_of_mem _ hi)
    obtain ⟨ihcov, ihprop, ihbet⟩ := ih b' hpw' hlt'
    have hz : (b :: b' :: bs').zip ((b' :: bs') ++ [n])
        = (b, b') :: (b' :: bs').zip (bs' ++ [n]) := rfl
    rw [hz]
    refine ⟨fun j hbj hjn => ?_, fun p hp => ?_, fun p hp t ht1 ht2 => ?_⟩
    · by_cases hjb' : j < b'
      · exact ⟨(b, b'), List.mem_cons_self _ _, hbj, hjb'⟩
      · obtain ⟨p, hp, hp1, hp2⟩ := ihcov j (by omega) hjn
        exact ⟨p, List.mem_cons_of_mem _ hp, hp1, hp2⟩
    · rcases List.mem_cons.mp hp with rfl | hp
      · exact ⟨le_rfl, hbb', le_of_lt (hlt' b' (List.mem_cons_self _ _)),
          List.mem_cons_self _ _,
          Or.inr (List.mem_cons_of_mem _ (List.mem_cons_self _ _))⟩
      · obtain ⟨hb'p, hpp, hpn, hpmem, hpend⟩ := ihprop p hp
        refine ⟨by omega, hpp, hpn, List.mem_cons_of_mem _ hpmem, ?_⟩
        rcases hpend with h | h
        · exact Or.inl h
        · exact Or.inr (List.mem_cons_of_mem _ h)
    · rcases List.mem_cons.mp hp with rfl | hp
      · intro hmem
        rcases List.mem_cons.mp hmem with rfl | hmem
        · omega
        · rcases List.mem_cons.mp hmem with rfl | hmem
          · omega
          · have := hblt t hmem
            omega
      · obtain ⟨hb'p, -, -, -, -⟩ := ihprop p hp
        intro hmem
        rcases List.mem_cons.mp hmem with rfl | hmem
        · omega
        · exact ihbet p hp t ht1 ht2 hmem

/-- A position that is not a run start carries the same value as its
predecessor; iterating: a gap free of run starts is constant. -/
theorem run_constant (cities : List String) :
    ∀ (j s : Nat), s ≤ j → j < cities.length →
      (∀ t, s < t → t ≤ j → isRunStart cities t = false) →
      cities.get? j = cities.get? s := by
  intro j
  induction j with
  | zero =>
    intro s hs _ _
    have : s = 0 := by omega
    rw [this]
  | succ j ih =>
    intro s hs hj hnb
    by_cases hsj : s = j + 1
    · rw [hsj]
    · have hrs := hnb (j + 1) (by omega) le_rfl
      unfold isRunStart at hrs
      simp only [Nat.add_sub_cancel, Bool.or_eq_false_iff,
        decide_eq_false_iff_not, ne_eq, not_not, decide_eq_true_eq] at hrs
      rw [hrs.2]
      exact ih s (by omega) (by omega)
        (fun t ht1 ht2 => hnb t ht1 (by omega))

/-- Monotonicity of a sorted table's values over positions. -/
theorem sorted_get?_mono {cities : List String}
    (hs : List.Sorted (· ≤ ·) cities) {i j : Nat} (hij : i ≤ j)
    {vi vj : String} (hvi : cities.get? i = some vi)
    (hvj : cities.get? j = some vj) : vi ≤ vj := by
  rcases Nat.lt_or_ge i j with hlt | hge
  · obtain ⟨hi, hgi⟩ := List.get?_eq_some.mp hvi
    obtain ⟨hj, hgj⟩ := List.get?_eq_some.mp hvj
    have := List.pairwise_iff_get.mp hs ⟨i, hi⟩ ⟨j, hj⟩ hlt
    rw [hgi, hgj] at this
    exact this
  · have : i = j := by omega
    rw [this, hvj] at hvi
    injection hvi with hvi
    rw [hvi]

/-- Claim C6: For a flight table sorted ascending by departure airport
(positions reset to `0..n-1`), `build_city_index` yields ranges such
that: ranges of distinct cities are pairwise disjoint; every position
`j < n` is covered by some range; every position inside a range carries
that range's city (and is in bounds), so the union of ranges is exactly
`[0, n)`; and no position outside the range carries its city. -/
theorem build_city_index_spec (cities : List String)
    (hsorted : List.Sorted (· ≤ ·) cities) :
    (∀ e ∈ build_city_index cities, ∀ e' ∈ build_city_index cities,
        e.1 ≠ e'.1 → e.2.2 ≤ e'.2.1 ∨ e'.2.2 ≤ e.2.1)
    ∧ (∀ j, j < cities.length →
        ∃ e ∈ build_city_index cities, e.2.1 ≤ j ∧ j < e.2.2)
    ∧ (∀ e ∈ build_city_index cities, ∀ j, e.2.1 ≤ j → j < e.2.2 →
        j < cities.length ∧ cities.get? j = some e.1)
    ∧ (∀ e ∈ build_city_index cities, ∀ j, j < cities.length →
        cities.get? j = some e.1 → e.2.1 ≤ j ∧ j < e.2.2) := by
  by_cases hne : cities = []
  · subst hne
    have hidx : build_city_index [] = [] := rfl
    rw [hidx]
    refine ⟨fun e he => absurd he (List.not_mem_nil e),
      fun j hj => absurd hj (by simp), fun e he => absurd he (List.not_mem_nil e),
      fun e he => absurd he (List.not_mem_nil e)⟩
  obtain ⟨rest, hci⟩ := changeIndices_head cities hne
  have hidx : build_city_index cities
      = ((0 :: rest).zip (rest ++ [cities.length])).map
        (fun p => (cities.getD p.1 "", p.1, p.2)) := by
    unfold build_city_index
    rw [if_neg (by simp [hne])]
    simp only [hci, List.tail_cons]
  have hpw : List.Pairwise (· < ·) (0 :: rest) := by
    rw [← hci]
    exact changeIndices_sorted cities
  have hlt : ∀ i ∈ 0 :: rest, i < cities.length := by
    intro i hi
    rw [← hci] at hi
    exact (mem_changeIndices.mp hi).1
  obtain ⟨RScov, RSprop, RSbet⟩ :=
    ranges_spec cities.length rest 0 hpw hlt
  -- rows inside a range all carry the value at the range's start
  have hc : ∀ p ∈ (0 :: rest).zip (rest ++ [cities.length]),
      ∀ j, p.1 ≤ j → j < p.2 → cities.get? j = cities.get? p.1 := by
    intro p hp j hj1 hj2
    obtain ⟨-, hpp, hpn, -, -⟩ := RSprop p hp
    apply run_constant cities j p.1 hj1 (by omega)
    intro t ht1 ht2
    have hnot := RSbet p hp t ht1 (by omega)
    by_contra hrs
    rw [← Bool.not_eq_true] at hrs
    push_neg at hrs
    have : t ∈ changeIndices cities :=
      mem_changeIndices.mpr ⟨by omega, hrs⟩
    rw [hci] at this
    exact hnot this
  -- the stored key is the value at the range's start
  have hkey : ∀ p ∈ (0 :: rest).zip (rest ++ [cities.length]),
      cities.get? p.1 = some (cities.getD p.1 "") := by
    intro p hp
    obtain ⟨-, hpp, hpn, -, -⟩ := RSprop p hp
    rw [List.getD_eq_get?]
    cases hv : cities.get? p.1 with
    | none =>
      have := List.get?_eq_none.mp hv
      omega
    | some v => rfl
  -- boundary positions separate distinct values
  have hbdy : ∀ s ∈ changeIndices cities, s ≠ 0 →
      cities.get? s ≠ cities.get? (s - 1) := by
    intro s hs hs0
    have := (mem_changeIndices.mp hs).2
    unfold isRunStart at this
    simp only [Bool.or_eq_true, decide_eq_true_eq] at this
    rcases this with h | h
    · exact absurd h hs0
    · exact h
  refine ⟨?_, ?_, ?_, ?_⟩
  · -- disjointness of ranges with distinct keys
    rw [hidx]
    intro e he e' he' hkne
    obtain ⟨p, hp, rfl⟩ := List.mem_map.mp he
    obtain ⟨p', hp', rfl⟩ := List.mem_map.mp he'
    by_contra hcon
    push_neg at hcon
    obtain ⟨h1, h2⟩ := hcon
    dsimp only at h1 h2 hkne
    obtain ⟨-, hpp, -, -, -⟩ := RSprop p hp
    obtain ⟨-, hpp', -, -, -⟩ := RSprop p' hp'
    have hj1 : p.1 ≤ max p.1 p'.1 := le_max_left _ _
    have hj2 : max p.1 p'.1 < p.2 := by omega
    have hj1' : p'.1 ≤ max p.1 p'.1 := le_max_right _ _
    have hj2' : max p.1 p'.1 < p'.2 := by omega
    have hv := (hc p hp _ hj1 hj2).symm.trans (hc p' hp' _ hj1' hj2')
    rw [hkey p hp, hkey p' hp'] at hv
    injection hv with hv
    exact hkne hv
  · -- coverage of [0, n)
    rw [hidx]
    intro j hj
    obtain ⟨p, hp, hp1, hp2⟩ := RScov j (Nat.zero_le j) hj
    exact ⟨(cities.getD p.1 "", p.1, p.2), List.mem_map.mpr ⟨p, hp, rfl⟩,
      hp1, hp2⟩
  · -- rows inside a range are in bounds and carry the key
    rw [hidx]
    intro e he j hj1 hj2
    obtain ⟨p, hp, rfl⟩ := List.mem_map.mp he
    dsimp only at hj1 hj2 ⊢
    obtain ⟨-, hpp, hpn, -, -⟩ := RSprop p hp
    refine ⟨by omega, ?_⟩
    rw [hc p hp j hj1 hj2, hkey p hp]
  · -- no row outside the range carries the key
    rw [hidx]
    intro e he j hj hval
    obtain ⟨p, hp, rfl⟩ := List.mem_map.mp he
    obtain ⟨-, hpp, hpn, hpmem, hpend⟩ := RSprop p hp
    by_contra hcon
    push_neg at hcon
    dsimp only at hcon
    have hvs := hkey p hp
    rcases Nat.lt_or_ge j p.1 with hjlt | hjge
    · -- j before the range: the boundary at p.1 separates values
      have hs0 : p.1 ≠ 0 := by omega
      have hsep := hbdy p.1 (by rw [hci]; exact hpmem) hs0
      have hvs' : ∃ vs', cities.get? (p.1 - 1) = some vs' := by
        cases hv : cities.get? (p.1 - 1) with
        | none =>
          have := List.get?_eq_none.mp hv
          omega
        | some v => exact ⟨v, rfl⟩
      obtain ⟨vs', hvs'⟩ := hvs'
      have hmono1 : (cities.getD p.1 "") ≤ vs' :=
        sorted_get?_mono hsorted (by omega) hval hvs'
      have hmono2 : vs' ≤ (cities.getD p.1 "") :=
        sorted_get?_mono hsorted (by omega) hvs' hvs
      apply hsep
      rw [hvs, hvs', le_antisymm hmono2 hmono1]
    · -- j at or past the range's end: the boundary at p.2 separates
      have hj2 : p.2 ≤ j := by omega
      have hp2n : p.2 < cities.length := by omega
      have hp2ci : p.2 ∈ changeIndices cities := by
        rcases hpend with h | h
        · omega
        · rw [hci]; exact h
      have hsep := hbdy p.2 hp2ci (by omega)
      have hprev : cities.get? (p.2 - 1) = cities.get? p.1 :=
        hc p hp (p.2 - 1) (by omega) (by omega)
      have hve : ∃ ve, cities.get? p.2 = some ve := by
        cases hv : cities.get? p.2 with
        | none =>
          have := List.get?_eq_none.mp hv
          omega
        | some v => exact ⟨v, rfl⟩
      obtain ⟨ve, hve⟩ := hve
      have h1 : cities.getD p.1 "" ≤ ve :=
        sorted_get?_mono hsorted (by omega) hvs hve
      have h2 : ve ≤ cities.getD p.1 "" :=
        sorted_get?_mono hsorted hj2 hve hval
      apply hsep
      rw [hve, hprev, hvs, le_antisymm h2 h1]

/-- Witness for C6 at the docstring-style table
`["BCN", "BCN", "WAW"]`: the built index and the coverage of row 1. -/
theorem build_city_index_spec_witness :
    build_city_index ["BCN", "BCN", "WAW"]
        = [("BCN", 0, 2), ("WAW", 2, 3)]
    ∧ ∃ e ∈ build_city_index ["BCN", "BCN", "WAW"],
        e.2.1 ≤ 1 ∧ 1 < e.2.2 := by
  refine ⟨by decide, ?_⟩
  exact (build_city_index_spec ["BCN", "BCN", "WAW"] (by
    simp [List.sorted_cons, String.le_iff_toList_le]
    decide)).2.1 1 (by decide)

end Chadguide
